import Mathlib

/-!
Verification of the aggregation / ranking / report-emission core of
`pyHCA/core/ioHCA.py` (functions `read_annotation`, `read_hcadomain`,
`read_pfamdomain`, `flatres`, `orderda`, `summary_tremolo`,
`write_tremolo_results`).

Python dictionaries are modelled as insertion-ordered association lists
(`Dict`), Python `float` significance values as `ℚ` (only ordering of the
values matters to the code under study), Python exceptions and `sys.exit`
as explicit `Except` / sum results, and Python's stable `list.sort()` as
`List.insertionSort` (a stable sort; on the lexicographic keys used by
the source the stable sorted permutation is unique).  String primitives
(`split`, `int()`, indexing, comparison) are modelled on the character
list underlying the string.
-/

namespace PyHCA

/-- Python dict: an insertion-ordered association list. -/
abbrev Dict (K V : Type) := List (K × V)

/-- Python `d[k]` as an `Option` (`none` models `KeyError`). -/
def dlookup {K V : Type} [DecidableEq K] : Dict K V → K → Option V
  | [], _ => Option.none
  | (k', v) :: d, k => if k' = k then some v else dlookup d k

/-- Python `d[k] = v`: overwrite in place if the key exists, else append. -/
def dinsert {K V : Type} [DecidableEq K] : Dict K V → K → V → Dict K V
  | [], k, v => [(k, v)]
  | (k', v') :: d, k, v => if k' = k then (k, v) :: d else (k', v') :: dinsert d k v

/-- The keys of a dict, in iteration order. -/
def dkeys {K V : Type} (d : Dict K V) : List K := d.map (·.1)

@[simp] theorem dkeys_nil {K V : Type} : dkeys ([] : Dict K V) = [] := rfl

@[simp] theorem dkeys_cons {K V : Type} (p : K × V) (d : Dict K V) :
    dkeys (p :: d) = p.1 :: dkeys d := rfl

@[simp] theorem dkeys_append {K V : Type} (d e : Dict K V) :
    dkeys (d ++ e) = dkeys d ++ dkeys e := by
  simp [dkeys]

theorem dlookup_dinsert_self {K V : Type} [DecidableEq K] (d : Dict K V) (k : K) (v : V) :
    dlookup (dinsert d k v) k = some v := by
  induction d with
  | nil => simp [dinsert, dlookup]
  | cons p d ih =>
    by_cases h : p.1 = k <;> simp [dinsert, dlookup, h, ih]

theorem dlookup_dinsert_ne {K V : Type} [DecidableEq K] (d : Dict K V) (k k' : K) (v : V)
    (h : k' ≠ k) : dlookup (dinsert d k v) k' = dlookup d k' := by
  have h' : k ≠ k' := Ne.symm h
  induction d with
  | nil => simp [dinsert, dlookup, h']
  | cons p d ih =>
    by_cases hp : p.1 = k
    · have hpk : ¬ p.1 = k' := by rw [hp]; exact h'
      simp only [dinsert, if_pos hp, dlookup, if_neg h', if_neg hpk]
    · by_cases hp' : p.1 = k'
      · simp only [dinsert, if_neg hp, dlookup, if_pos hp']
      · simp only [dinsert, if_neg hp, dlookup, if_neg hp', ih]

theorem mem_dkeys_dinsert {K V : Type} [DecidableEq K] (d : Dict K V) (k q : K) (v : V) :
    q ∈ dkeys (dinsert d k v) ↔ q ∈ dkeys d ∨ q = k := by
  induction d with
  | nil => simp [dinsert]
  | cons p d ih =>
    by_cases h : p.1 = k
    · subst h
      simp only [dinsert, if_true, dkeys_cons, List.mem_cons]
      tauto
    · simp only [dinsert, h, if_false, dkeys_cons, List.mem_cons, ih]
      tauto

theorem dlookup_eq_none_iff {K V : Type} [DecidableEq K] (d : Dict K V) (k : K) :
    dlookup d k = Option.none ↔ k ∉ dkeys d := by
  induction d with
  | nil => simp [dlookup]
  | cons p d ih =>
    by_cases h : p.1 = k
    · subst h
      simp [dlookup]
    · have h' : k ≠ p.1 := fun he => h he.symm
      simp [dlookup, h, List.mem_cons, h', ih]

theorem dlookup_isSome_iff {K V : Type} [DecidableEq K] (d : Dict K V) (k : K) :
    (dlookup d k).isSome ↔ k ∈ dkeys d := by
  rcases h : dlookup d k with _ | v
  · simp [(dlookup_eq_none_iff d k).mp h]
  · simp only [Option.isSome_some, true_iff]
    by_contra hk
    rw [← dlookup_eq_none_iff] at hk
    rw [h] at hk; cases hk

theorem nodup_dkeys_dinsert {K V : Type} [DecidableEq K] (d : Dict K V) (k : K) (v : V)
    (h : (dkeys d).Nodup) : (dkeys (dinsert d k v)).Nodup := by
  induction d with
  | nil => simp [dinsert]
  | cons p d ih =>
    by_cases hp : p.1 = k
    · subst hp
      simpa [dinsert] using h
    · simp only [dkeys_cons, List.nodup_cons] at h
      simp only [dinsert, hp, if_false, dkeys_cons, List.nodup_cons]
      refine ⟨fun hm => ?_, ih h.2⟩
      rw [mem_dkeys_dinsert] at hm
      rcases hm with hm | hm
      · exact h.1 hm
      · exact hp hm

theorem mem_of_dlookup {K V : Type} [DecidableEq K] {d : Dict K V} {k : K} {v : V}
    (h : dlookup d k = some v) : (k, v) ∈ d := by
  induction d with
  | nil => cases h
  | cons p d ih =>
    by_cases hp : p.1 = k
    · subst hp
      have hd : dlookup (p :: d) p.1 = some p.2 := by simp [dlookup]
      rw [hd] at h
      cases h
      simp
    · simp only [dlookup, hp, if_false] at h
      exact List.mem_cons_of_mem _ (ih h)

theorem dlookup_of_mem {K V : Type} [DecidableEq K] {d : Dict K V} {k : K} {v : V}
    (hnd : (dkeys d).Nodup) (h : (k, v) ∈ d) : dlookup d k = some v := by
  induction d with
  | nil => cases h
  | cons p d ih =>
    simp only [dkeys_cons, List.nodup_cons] at hnd
    rcases List.mem_cons.mp h with h | h
    · subst h
      simp [dlookup]
    · have hk : k ∈ dkeys d := List.mem_map_of_mem _ h
      have hne : p.1 ≠ k := fun he => hnd.1 (he ▸ hk)
      simp [dlookup, hne, ih hnd.2 h]

/-! ### Python string order (code-point lexicographic, on the character data) -/

/-- Python `a < b` on strings: lexicographic on the character sequences. -/
def strLt (a b : String) : Prop := List.Lex (· < ·) a.data b.data

/-- Python `a <= b` on strings. -/
def strLe (a b : String) : Prop := strLt a b ∨ a = b

instance : DecidableRel strLt := fun a b =>
  inferInstanceAs (Decidable (List.Lex (· < ·) a.data b.data))

instance : DecidableRel strLe := fun a b =>
  inferInstanceAs (Decidable (strLt a b ∨ a = b))

def lexCharTrans : IsTrans (List Char) (List.Lex (· < ·)) := inferInstance

def lexCharTri : IsTrichotomous (List Char) (List.Lex (· < ·)) := inferInstance

def lexCharAsymm : IsAsymm (List Char) (List.Lex (· < ·)) := inferInstance

theorem strLt_trans {a b c : String} (h1 : strLt a b) (h2 : strLt b c) : strLt a c :=
  lexCharTrans.trans _ _ _ h1 h2

theorem strLt_tri (a b : String) : strLt a b ∨ a = b ∨ strLt b a := by
  rcases lexCharTri.trichotomous a.data b.data with h | h | h
  · exact Or.inl h
  · exact Or.inr (Or.inl (String.ext h))
  · exact Or.inr (Or.inr h)

theorem strLt_irrefl (a : String) : ¬ strLt a a := fun h => lexCharAsymm.asymm _ _ h h

theorem strLe_trans {a b c : String} (h1 : strLe a b) (h2 : strLe b c) : strLe a c := by
  rcases h1 with h1 | h1 <;> rcases h2 with h2 | h2
  · exact Or.inl (strLt_trans h1 h2)
  · exact h2 ▸ Or.inl h1
  · exact Or.inl (h1 ▸ h2)
  · exact Or.inr (h1.trans h2)

theorem strLe_total (a b : String) : strLe a b ∨ strLe b a := by
  rcases strLt_tri a b with h | h | h
  · exact Or.inl (Or.inl h)
  · exact Or.inl (Or.inr h)
  · exact Or.inr (Or.inl h)

theorem strLe_lt_of_ne {a b : String} (h : strLe a b) (hne : a ≠ b) : strLt a b := by
  rcases h with h | h
  · exact h
  · exact absurd h hne

/-! ### Lexicographic tuple order (Python tuple comparison) -/

/-- Python tuple comparison, lexicographic: strict order `lt` on the first
component, `le` on the rest. -/
def lex2 {α β : Type} (lt : α → α → Prop) (le : β → β → Prop) (a b : α × β) : Prop :=
  lt a.1 b.1 ∨ (a.1 = b.1 ∧ le a.2 b.2)

def lex2Dec {α β : Type} [DecidableEq α] (lt : α → α → Prop) (le : β → β → Prop)
    [DecidableRel lt] [DecidableRel le] : DecidableRel (lex2 lt le) := fun _ _ =>
  inferInstanceAs (Decidable (_ ∨ _ ∧ _))

theorem lex2_trans {α β : Type} {lt : α → α → Prop} {le : β → β → Prop}
    (hlt : ∀ x y z, lt x y → lt y z → lt x z)
    (hle : ∀ x y z, le x y → le y z → le x z) :
    ∀ a b c, lex2 lt le a b → lex2 lt le b c → lex2 lt le a c := by
  rintro a b c (h1 | ⟨e1, h1⟩) (h2 | ⟨e2, h2⟩)
  · exact Or.inl (hlt _ _ _ h1 h2)
  · exact Or.inl (e2 ▸ h1)
  · exact Or.inl (e1 ▸ h2)
  · exact Or.inr ⟨e1.trans e2, hle _ _ _ h1 h2⟩

theorem lex2_total {α β : Type} {lt : α → α → Prop} {le : β → β → Prop}
    (htri : ∀ x y, lt x y ∨ x = y ∨ lt y x)
    (hto : ∀ x y, le x y ∨ le y x) :
    ∀ a b, lex2 lt le a b ∨ lex2 lt le b a := by
  intro a b
  rcases htri a.1 b.1 with h | h | h
  · exact Or.inl (Or.inl h)
  · rcases hto a.2 b.2 with h2 | h2
    · exact Or.inl (Or.inr ⟨h, h2⟩)
    · exact Or.inr (Or.inr ⟨h.symm, h2⟩)
  · exact Or.inr (Or.inl h)

/-! ### Data model: hit records and display fields -/

/-- One hhblits hit record as consumed by `flatres` / `orderda` /
`summary_tremolo` (`targets[name][hitnum]` in `ioHCA.py`).  Significance
values are modelled as `ℚ`, alignment positions as `ℤ`, text as `String`. -/
structure Hit where
  Evalue : ℚ
  descr : String
  Probab : ℚ
  Score : ℚ
  Identities : ℚ
  Similarity : ℚ
  Sum_probs : ℚ
  Qstart : ℤ
  Qstop : ℤ
  Tstart : ℤ
  Tstop : ℤ
  Qali : String
  Qcons : String
  Tali : String
  Tcons : String
deriving DecidableEq

/-- A display field of the flattened per-hit list (heterogeneous Python list). -/
inductive Field : Type
  | num (q : ℚ)
  | int (i : ℤ)
  | str (s : String)
deriving DecidableEq

/-- The 15-element display list built by `flatres` (ioHCA.py lines 159-162). -/
def hitFields (res : Hit) : List Field :=
  [.num res.Evalue, .str res.descr, .num res.Probab, .num res.Score, .num res.Identities,
   .num res.Similarity, .num res.Sum_probs, .int res.Qstart, .int res.Qstop,
   .int res.Tstart, .int res.Tstop, .str res.Qali, .str res.Qcons, .str res.Tali,
   .str res.Tcons]

/-! ### HitFlattener: `flatres` (ioHCA.py lines 143-170) -/

/-- Sort key order used by `flatres` / `orderda`: Python `<=` on
`(float, str)` pairs. -/
def pairLE (a b : ℚ × String) : Prop := lex2 (· < ·) strLe a b

instance : DecidableRel pairLE := fun a b => lex2Dec _ _ a b

instance : IsTrans (ℚ × String) pairLE :=
  ⟨lex2_trans (fun _ _ _ h1 h2 => lt_trans h1 h2) (fun _ _ _ h1 h2 => strLe_trans h1 h2)⟩

instance : IsTotal (ℚ × String) pairLE :=
  ⟨lex2_total (fun x y => lt_trichotomy x y) strLe_total⟩

/-- Python `if res < cur: cur = res / else initialize` update of
`prot_orders[name]` (ioHCA.py lines 154-158). -/
def updateMin (orders : Dict String ℚ) (name : String) (e : ℚ) : Dict String ℚ :=
  match dlookup orders name with
  | some cur => if e < cur then dinsert orders name e else orders
  | Option.none => dinsert orders name e

/-- Inner loop of `flatres` over `targets[name]` (ioHCA.py lines 152-162):
builds `flattargets[name]` and updates the per-protein running minimum. -/
def flatresHits (name : String) :
    List (Nat × Hit) → Dict Nat (List Field) → Dict String ℚ →
      Dict Nat (List Field) × Dict String ℚ
  | [], flatName, orders => (flatName, orders)
  | (hitnum, res) :: rest, flatName, orders =>
      flatresHits name rest (dinsert flatName hitnum (hitFields res))
        (updateMin orders name res.Evalue)

/-- Outer loop of `flatres` over `proteins` (ioHCA.py lines 150-162);
`targets[name]` raises `KeyError` when the protein is missing. -/
def flatresProts (targets : Dict String (Dict Nat Hit)) :
    List String → Dict String (Dict Nat (List Field)) → Dict String ℚ →
      Except String (Dict String (Dict Nat (List Field)) × Dict String ℚ)
  | [], flat, orders => .ok (flat, orders)
  | name :: rest, flat, orders =>
    match dlookup targets name with
    | Option.none => .error "KeyError"
    | some hits =>
      match flatresHits name hits [] orders with
      | (flatName, orders2) => flatresProts targets rest (dinsert flat name flatName) orders2

/-- Final lines of `flatres` (ioHCA.py lines 167-170): sort the
`(best e-value, protein)` pairs by Python tuple comparison and unzip;
`evalues, order = zip(*flatorders)` raises `ValueError` when the pair list
is empty. -/
def flatresPost (flat : Dict String (Dict Nat (List Field))) (orders : Dict String ℚ) :
    Except String (List String × Dict String (Dict Nat (List Field))) :=
  match List.insertionSort pairLE (orders.map fun p => (p.2, p.1)) with
  | [] => .error "ValueError: not enough values to unpack"
  | q :: qs => .ok (((q :: qs).map (·.2)), flat)

/-- `flatres` (ioHCA.py lines 143-170). -/
def flatres (targets : Dict String (Dict Nat Hit)) (proteins : List String) :
    Except String (List String × Dict String (Dict Nat (List Field))) :=
  match flatresProts targets proteins [] [] with
  | .error e => .error e
  | .ok (flat, orders) => flatresPost flat orders

/-! ### ArrangementRanker: `orderda` (ioHCA.py lines 172-190) -/

/-- Inner loops of `orderda`: for each member protein of arrangement `da`,
append `(e_value, da)` for every hit (ioHCA.py lines 179-181). -/
def orderdaProts (targets : Dict String (Dict Nat Hit)) (da : String) :
    List String → List (ℚ × String) → Except String (List (ℚ × String))
  | [], kept => .ok kept
  | prot :: rest, kept =>
    match dlookup targets prot with
    | Option.none => .error "KeyError"
    | some hits => orderdaProts targets da rest (kept ++ hits.map fun q => (q.2.Evalue, da))

/-- Outer loop of `orderda` over the arrangement dict (ioHCA.py lines 177-181). -/
def orderdaCollect (targets : Dict String (Dict Nat Hit)) :
    List (String × List String) → List (ℚ × String) → Except String (List (ℚ × String))
  | [], kept => .ok kept
  | (da, prots) :: rest, kept =>
    match orderdaProts targets da prots kept with
    | .error e => .error e
    | .ok kept2 => orderdaCollect targets rest kept2

/-- Deduplication walk of `orderda` (ioHCA.py lines 184-189): append each
arrangement the first time it is seen in the sorted pair list. -/
def dedupDA : List (ℚ × String) → List String → List String
  | [], _ => []
  | (_, da) :: rest, visited =>
    if da ∈ visited then dedupDA rest visited else da :: dedupDA rest (da :: visited)

/-- `orderda` (ioHCA.py lines 172-190). -/
def orderda (arrangements : Dict String (List String))
    (targets : Dict String (Dict Nat Hit)) : Except String (List String) :=
  match orderdaCollect targets arrangements [] with
  | .error e => .error e
  | .ok kept => .ok (dedupDA (List.insertionSort pairLE kept) [])

/-! ### SummaryBuilder: `summary_tremolo` (ioHCA.py lines 192-226) -/

/-- One collected summary entry
`(e_value, probability, protein, hit_id, arrangement)` (ioHCA.py line 219). -/
abbrev Row : Type := ℚ × ℚ × String × Nat × String

/-- Python `<=` on `(int, str)` pairs. -/
def leNS (a b : Nat × String) : Prop := lex2 (· < ·) strLe a b

instance : DecidableRel leNS := fun a b => lex2Dec _ _ a b

theorem leNS_trans : ∀ a b c, leNS a b → leNS b c → leNS a c :=
  lex2_trans (fun _ _ _ h1 h2 => lt_trans h1 h2) (fun _ _ _ h1 h2 => strLe_trans h1 h2)

theorem leNS_total : ∀ a b, leNS a b ∨ leNS b a :=
  lex2_total (fun x y => lt_trichotomy x y) strLe_total

/-- Python `<=` on `(str, int, str)` tuples. -/
def leSNS (a b : String × Nat × String) : Prop := lex2 strLt leNS a b

instance : DecidableRel leSNS := fun a b => lex2Dec _ _ a b

theorem leSNS_trans : ∀ a b c, leSNS a b → leSNS b c → leSNS a c :=
  lex2_trans (fun _ _ _ h1 h2 => strLt_trans h1 h2) leNS_trans

theorem leSNS_total : ∀ a b, leSNS a b ∨ leSNS b a :=
  lex2_total strLt_tri leNS_total

/-- Python `<=` on `(float, str, int, str)` tuples. -/
def leQSNS (a b : ℚ × String × Nat × String) : Prop := lex2 (· < ·) leSNS a b

instance : DecidableRel leQSNS := fun a b => lex2Dec _ _ a b

theorem leQSNS_trans : ∀ a b c, leQSNS a b → leQSNS b c → leQSNS a c :=
  lex2_trans (fun _ _ _ h1 h2 => lt_trans h1 h2) leSNS_trans

theorem leQSNS_total : ∀ a b, leQSNS a b ∨ leQSNS b a :=
  lex2_total (fun x y => lt_trichotomy x y) leSNS_total

/-- Python `<=` on the collected 5-tuples: the comparison used by
`data.sort()` (ioHCA.py line 222). -/
def le5 (a b : Row) : Prop := lex2 (· < ·) leQSNS a b

instance : DecidableRel le5 := fun a b => lex2Dec _ _ a b

instance : IsTrans Row le5 :=
  ⟨lex2_trans (fun _ _ _ h1 h2 => lt_trans h1 h2) leQSNS_trans⟩

instance : IsTotal Row le5 :=
  ⟨lex2_total (fun x y => lt_trichotomy x y) leQSNS_total⟩

/-- Reverse index `prot2grp[prot] = da` for all members of one arrangement
(ioHCA.py lines 213-214). -/
def prot2grpAdd (acc : Dict String String) (da : String) :
    List String → Dict String String
  | [] => acc
  | p :: rest => prot2grpAdd (dinsert acc p da) da rest

/-- Build of `prot2grp` over all arrangements of one query sub-domain
(ioHCA.py lines 211-214). -/
def buildProt2grp : List (String × List String) → Dict String String → Dict String String
  | [], acc => acc
  | (da, prots) :: rest, acc => buildProt2grp rest (prot2grpAdd acc da prots)

/-- Collection loop of `summary_tremolo` (ioHCA.py lines 217-221):
one `Row` per hit; `prot2grp[prot]` raises `KeyError` when missing. -/
def collectData (p2g : Dict String String) :
    List (String × Dict Nat Hit) → List Row → Except String (List Row)
  | [], data => .ok data
  | (prot, hits) :: rest, data =>
    match dlookup p2g prot with
    | Option.none => .error "KeyError"
    | some da =>
      collectData p2g rest
        (data ++ hits.map fun q => (q.2.Evalue, q.2.Probab, prot, q.1, da))

/-- The kept rows for one query sub-domain (ioHCA.py lines 211-223):
collect, sort ascending, truncate to `xbest`. -/
def summaryRows (tgQd : Dict String (Dict Nat Hit)) (grpQd : Dict String (List String))
    (xbest : Nat) : Except String (List Row) :=
  match collectData (buildProt2grp grpQd []) tgQd [] with
  | .error e => .error e
  | .ok data => .ok ((List.insertionSort le5 data).take xbest)

/-- One summary line (ioHCA.py line 225). -/
def renderRow (querydom : Nat) (r : Row) : String :=
  "Qdom\t" ++ toString (querydom + 1) ++ "\t" ++ r.2.2.1 ++ "\t" ++
    toString r.2.2.2.1 ++ "\t" ++ r.2.2.2.2 ++ "\t" ++ toString r.1 ++ "\t" ++ toString r.2.1

/-- `summary_tremolo` (ioHCA.py lines 192-226): loop over the query
sub-domains of `targets`; `groups[querydom]` raises `KeyError` when absent. -/
def summaryGo (groups : Dict Nat (Dict String (List String))) (xbest : Nat) :
    List (Nat × Dict String (Dict Nat Hit)) → String → Except String String
  | [], acc => .ok acc
  | (querydom, tgQd) :: rest, acc =>
    match dlookup groups querydom with
    | Option.none => .error "KeyError"
    | some grpQd =>
      match summaryRows tgQd grpQd xbest with
      | .error e => .error e
      | .ok rows =>
        summaryGo groups xbest rest
          (acc ++ String.join (rows.map fun r => renderRow querydom r ++ "\n"))

/-- `summary_tremolo` (ioHCA.py lines 192-226): loop over the query
sub-domains of `targets`; `groups[querydom]` raises `KeyError` when absent. -/
def summary_tremolo (targets : Dict Nat (Dict String (Dict Nat Hit)))
    (groups : Dict Nat (Dict String (List String))) (xbest : Nat) :
    Except String String :=
  summaryGo groups xbest targets ""

/-! ### AnnotationStore: the readers (ioHCA.py lines 65-140) and the
annotation block of the writer (ioHCA.py lines 286-290) -/

/-- A component of a stored annotation tuple (heterogeneous Python tuple);
`pyNone` models Python `None`. -/
inductive AVal : Type
  | int (i : ℤ)
  | str (s : String)
  | pyNone
deriving DecidableEq

/-- Helper of `pySplit`: whitespace tokenizer on the character list
(`acc` carries the current token reversed). -/
def splitWsAux : List Char → List Char → List (List Char)
  | [], acc => if acc = [] then [] else [acc.reverse]
  | c :: cs, acc =>
    if c.isWhitespace then
      if acc = [] then splitWsAux cs [] else acc.reverse :: splitWsAux cs []
    else splitWsAux cs (c :: acc)

/-- Python `line.split()`: split on whitespace runs, no empty tokens. -/
def pySplit (s : String) : List String := (splitWsAux s.data []).map String.mk

/-- Digit-string evaluation for `pyInt`. -/
def digitsAux : List Char → Nat → Option Nat
  | [], acc => some acc
  | c :: cs, acc =>
    if c.isDigit then digitsAux cs (acc * 10 + (c.toNat - '0'.toNat)) else Option.none

/-- Python `int(s)` on the character data: optional sign, then digits. -/
def pyIntChars : List Char → Option Int
  | [] => Option.none
  | '-' :: rest =>
    match rest with
    | [] => Option.none
    | _ => (digitsAux rest 0).map fun n => -(n : Int)
  | cs => (digitsAux cs 0).map fun n => (n : Int)

/-- Python `int(s)` (`ValueError` on a malformed literal). -/
def pyInt (s : String) : Except String Int :=
  match pyIntChars s.data with
  | some i => .ok i
  | Option.none => .error "ValueError: invalid literal for int"

/-- Handling of a non-header line of a seghca file, on its split tokens
(ioHCA.py lines 110-113): a `domain` line stores
`(int(tmp[1])-1, int(tmp[2]), tmp[0], "!", None)`; other lines are skipped. -/
def hcaDomainStep (st : Dict String (List (List AVal)) × Option String)
    (tmp : List String) :
    Except String (Dict String (List (List AVal)) × Option String) :=
  match tmp with
  | [] => .error "IndexError"
  | tmp0 :: rest =>
    if tmp0 = "domain" then
      match rest with
      | t1 :: t2 :: _ =>
        match pyInt t1, pyInt t2 with
        | .ok s, .ok e =>
          match st.2 with
          | Option.none => .error "NameError"
          | some prot =>
            match dlookup st.1 prot with
            | Option.none => .error "KeyError"
            | some l =>
              .ok (dinsert st.1 prot
                (l ++ [[AVal.int (s - 1), AVal.int e, AVal.str tmp0, AVal.str "!",
                  AVal.pyNone]]), st.2)
        | .error m, _ => .error m
        | _, .error m => .error m
      | _ => .error "IndexError"
    else .ok st

/-- One line of `read_hcadomain` (ioHCA.py lines 105-113).  The state is
`(annotation dict, loop-carried protein id)`; a `>` header line registers a
fresh empty list; `line[1:-1]` drops the leading `>` and the trailing
newline. -/
def hcaLine (st : Dict String (List (List AVal)) × Option String) (line : String) :
    Except String (Dict String (List (List AVal)) × Option String) :=
  match line.data with
  | [] => .error "IndexError"
  | c :: cs =>
    if c = '>' then
      match (splitWsAux cs.dropLast []).map String.mk with
      | [prot, _] => .ok (dinsert st.1 prot [], some prot)
      | _ => .error "ValueError: unpack"
    else hcaDomainStep st (pySplit line)

/-- `read_hcadomain` (ioHCA.py lines 90-114), on the file's lines
(each including its trailing newline, as Python file iteration yields them). -/
def read_hcadomain (lines : List String) :
    Except String (Dict String (List (List AVal))) :=
  (lines.foldlM hcaLine ([], Option.none)).map (·.1)

/-- One line of `read_pfamdomain` (ioHCA.py lines 131-139): skip comments
and blank lines, else store `(int(tmp[2]), int(tmp[3]), tmp[1], "!", None)`
under `tmp[0]` via `setdefault`. -/
def pfamLine (annotMap : Dict String (List (List AVal))) (line : String) :
    Except String (Dict String (List (List AVal))) :=
  match line.data with
  | [] => .error "IndexError"
  | c :: _ =>
    if c = '#' ∨ c = '\n' then .ok annotMap
    else
      match pySplit line with
      | t0 :: t1 :: t2 :: t3 :: _ =>
        match pyInt t2, pyInt t3 with
        | .ok hs, .ok he =>
          .ok (dinsert annotMap t0
            (((dlookup annotMap t0).getD []) ++
              [[AVal.int hs, AVal.int he, AVal.str t1, AVal.str "!", AVal.pyNone]]))
        | .error m, _ => .error m
        | _, .error m => .error m
      | _ => .error "IndexError"

/-- `read_pfamdomain` (ioHCA.py lines 116-140). -/
def read_pfamdomain (lines : List String) :
    Except String (Dict String (List (List AVal))) :=
  lines.foldlM pfamLine []

/-- Result of the format dispatch: parsed map, propagated exception, or
process exit. -/
inductive AnnResult : Type
  | ok (annotMap : Dict String (List (List AVal)))
  | exc (msg : String)
  | exit (code : Nat)
deriving DecidableEq

/-- The format dispatch of `read_annotation` (ioHCA.py lines 80-88):
`"seghca"` and `"pfam"` delegate to the readers, anything else prints an
error and calls `sys.exit(1)`. -/
def read_annot (lines : List String) (formatf : String) : AnnResult :=
  if formatf = "seghca" then
    match read_hcadomain lines with
    | .ok a => .ok a
    | .error m => .exc m
  else if formatf = "pfam" then
    match read_pfamdomain lines with
    | .ok a => .ok a
    | .error m => .exc m
  else .exit 1

/-- Python `str(v)` of a stored tuple component. -/
def avalStr : AVal → String
  | .int i => toString i
  | .str s => s
  | .pyNone => "None"

/-- Python `v + 1` on a stored tuple component (`TypeError` unless numeric). -/
def avalPlus1 : AVal → Except String AVal
  | .int i => .ok (.int (i + 1))
  | _ => .error "TypeError"

/-- The annotation line of `write_tremolo_results` (ioHCA.py lines 287-288):
unpack the stored tuple into six components
`start, stop, dom, d_e_val, bitscore, types` and print
`querydom+1, dom, start+1, stop, d_e_val, bitscore`. -/
def annotLine (querydom : Nat) (t : List AVal) : Except String String :=
  match t with
  | [dstart, dstop, dom, dEval, bitscore, _] =>
    match avalPlus1 dstart with
    | .ok s1 =>
      .ok ("Qdom\t" ++ toString (querydom + 1) ++ "\t" ++ avalStr dom ++ "\t" ++
        avalStr s1 ++ "\t" ++ avalStr dstop ++ "\t" ++ avalStr dEval ++ "\t" ++
        avalStr bitscore)
    | .error m => .error m
  | _ => .error "ValueError: unpack"

/-- The per-protein annotation block of `write_tremolo_results`
(ioHCA.py lines 286-290): one line per stored tuple when the protein is a
key of `cddres`, else the literal `None` line. -/
def annotBlock (querydom : Nat) (cddres : Dict String (List (List AVal)))
    (prot : String) : Except String (List String) :=
  match dlookup cddres prot with
  | some annots => annots.mapM (annotLine querydom)
  | Option.none => .ok ["Qdom\t" ++ toString (querydom + 1) ++ "\tNone"]

/-! ### Characterizations used in the theorem statements -/

/-- Best (minimum) e-value of a protein over its hits; `none` when the
protein is missing from the hit mapping or has no hit. -/
def protMin (targets : Dict String (Dict Nat Hit)) (p : String) : Option ℚ :=
  (dlookup targets p).bind fun hits => (hits.map fun q => q.2.Evalue).min?

/-- Comparison by best e-value only (no tie component). -/
def evalOnlyLE (a b : ℚ × String) : Prop := a.1 ≤ b.1

instance : DecidableRel evalOnlyLE := fun a b => inferInstanceAs (Decidable (a.1 ≤ b.1))

/-- Modelled from the spec: `order`, the sequence of protein ids sorted
ascending by each protein's best e-value among the given hits, ties broken
by the order protein ids were first observed (a stable sort on the best
e-value alone, not re-sorted by id).  Differs from `flatres` only in the
sort key. -/
def specStableOrder (targets : Dict String (Dict Nat Hit)) (proteins : List String) :
    Except String (List String) :=
  match flatresProts targets proteins [] [] with
  | .error e => .error e
  | .ok (_, orders) =>
    .ok ((List.insertionSort evalOnlyLE (orders.map fun p => (p.2, p.1))).map (·.2))

/-- The `(e_value, arrangement)` pairs contributed by the member proteins of
one arrangement (the inner loops of `orderda`, as a pure list). -/
def protEntries (targets : Dict String (Dict Nat Hit)) (da : String)
    (prots : List String) : List (ℚ × String) :=
  (prots.map fun p => ((dlookup targets p).getD []).map fun q => (q.2.Evalue, da)).flatten

/-- All `(e_value, arrangement)` pairs collected by `orderda`. -/
def entriesOf (targets : Dict String (Dict Nat Hit))
    (arrs : List (String × List String)) : List (ℚ × String) :=
  (arrs.map fun pr => protEntries targets pr.1 pr.2).flatten

/-- Minimum e-value among the pairs of `l` tagged with arrangement `d`. -/
def sndMin (l : List (ℚ × String)) (d : String) : Option ℚ :=
  ((l.filter fun q => q.2 = d).map (·.1)).min?

/-- Minimum e-value over all hits of all member proteins of arrangement `d`. -/
def daMin (targets : Dict String (Dict Nat Hit)) (arrs : List (String × List String))
    (d : String) : Option ℚ :=
  sndMin (entriesOf targets arrs) d

/-- All rows collected by `summary_tremolo` for one query sub-domain
(before sorting and truncation). -/
def allRows (tgQd : Dict String (Dict Nat Hit)) (p2g : Dict String String) : List Row :=
  (tgQd.map fun pr => pr.2.map fun q =>
    (q.2.Evalue, q.2.Probab, pr.1, q.1, (dlookup p2g pr.1).getD "")).flatten

/-- The running-minimum combination performed by `updateMin`
(keep the current value on ties). -/
def combineMin : Option ℚ → ℚ → ℚ
  | Option.none, e => e
  | some c, e => if e < c then e else c

/-- Folding `combineMin` over a list of e-values. -/
def ofold : Option ℚ → List ℚ → Option ℚ
  | c, [] => c
  | c, e :: es => ofold (some (combineMin c e)) es

/-- E-values of a protein's hits, in iteration order. -/
def evalList (targets : Dict String (Dict Nat Hit)) (p : String) : List ℚ :=
  ((dlookup targets p).getD []).map fun q => q.2.Evalue

/-- The flat per-hit dict built for one protein (pure form of the inner
loop of `flatres`). -/
def flatFold (flatName : Dict Nat (List Field)) (hits : List (Nat × Hit)) :
    Dict Nat (List Field) :=
  hits.foldl (fun fn q => dinsert fn q.1 (hitFields q.2)) flatName

/-- All stored tuples of an annotation map have exactly five components
(the shape produced by both readers). -/
def all5 (m : Dict String (List (List AVal))) : Prop :=
  ∀ p l, (p, l) ∈ m → ∀ t ∈ l, t.length = 5

/-- A concrete hit used by the witnesses. -/
def sampleHit (e : ℚ) : Hit :=
  ⟨e, "d", 1, 1, 1, 1, 1, 0, 9, 0, 9, "AA", "BB", "CC", "DD"⟩

/-! ### General helper lemmas -/

theorem mem_dinsert {K V : Type} [DecidableEq K] {d : Dict K V} {k : K} {v : V} {q : K} {w : V}
    (h : (q, w) ∈ dinsert d k v) : (q, w) ∈ d ∨ (q = k ∧ w = v) := by
  induction d with
  | nil =>
    simp only [dinsert, List.mem_singleton, Prod.mk.injEq] at h
    exact Or.inr h
  | cons p d ih =>
    by_cases hp : p.1 = k
    · simp only [dinsert, if_pos hp] at h
      rcases List.mem_cons.mp h with h | h
      · simp only [Prod.mk.injEq] at h
        exact Or.inr h
      · exact Or.inl (List.mem_cons_of_mem _ h)
    · simp only [dinsert, if_neg hp] at h
      rcases List.mem_cons.mp h with h | h
      · exact Or.inl (h ▸ List.mem_cons_self _ _)
      · rcases ih h with h | h
        · exact Or.inl (List.mem_cons_of_mem _ h)
        · exact Or.inr h

/-! ### Theorems for C2 (None placeholder vs empty annotation block) -/

/-- C2 counterexample: a protein present in the annotation mapping with an
empty annotation list renders an empty annotation block — the claimed `None`
placeholder line does not appear. -/
theorem C2_counterexample :
    annotBlock 0 [("P", [])] "P" = .ok [] ∧
    "Qdom\t1\tNone" ∉ ([] : List String) :=
  ⟨rfl, by decide⟩

/-- C2 (amended): `write_tremolo_results` renders the literal `None`
placeholder line exactly for proteins absent from the annotation mapping;
a protein present with an empty annotation list yields an empty annotation
block (no lines at all). -/
theorem C2_none_only_when_absent (qd : Nat) (cddres : Dict String (List (List AVal)))
    (prot : String) :
    (dlookup cddres prot = Option.none →
      annotBlock qd cddres prot = .ok ["Qdom\t" ++ toString (qd + 1) ++ "\tNone"]) ∧
    (dlookup cddres prot = some [] → annotBlock qd cddres prot = .ok []) := by
  refine ⟨fun h => ?_, fun h => ?_⟩
  · simp [annotBlock, h]
  · simp only [annotBlock, h]
    rfl

theorem C2_none_only_when_absent_witness :
    dlookup ([] : Dict String (List (List AVal))) "P" = Option.none ∧
    annotBlock 0 [] "P" = .ok ["Qdom\t1\tNone"] :=
  ⟨rfl, (C2_none_only_when_absent 0 [] "P").1 rfl⟩

/-! ### Theorems for C7 (coordinate round-trip) -/

/-- C7: a seghca `domain` line carrying 1-based inclusive bounds `(s, e)` is
stored by `read_hcadomain`'s line handler as the 0-based half-open pair
`(s - 1, e)`, and the annotation line of `write_tremolo_results` prints
`start + 1` and `stop`, so parsing followed by rendering reproduces exactly
`(s, e)`. -/
theorem C7_coordinate_roundtrip
    {st : Dict String (List (List AVal)) × Option String}
    {line : String} {c : Char} {cs : List Char}
    {prot : String} {l : List (List AVal)} {tmp1 tmp2 : String} {rest : List String}
    {s e : ℤ}
    (hdata : line.data = c :: cs) (hgt : c ≠ '>')
    (hsplit : pySplit line = "domain" :: tmp1 :: tmp2 :: rest)
    (hs : pyInt tmp1 = .ok s) (he : pyInt tmp2 = .ok e)
    (hcur : st.2 = some prot) (hl : dlookup st.1 prot = some l) :
    hcaLine st line =
      .ok (dinsert st.1 prot
        (l ++ [[AVal.int (s - 1), AVal.int e, AVal.str "domain", AVal.str "!", AVal.pyNone]]),
        st.2) ∧
    ∀ dom dEval bs ty qd,
      annotLine qd [AVal.int (s - 1), AVal.int e, dom, dEval, bs, ty] =
        .ok ("Qdom\t" ++ toString (qd + 1) ++ "\t" ++ avalStr dom ++ "\t" ++
          toString s ++ "\t" ++ toString e ++ "\t" ++ avalStr dEval ++ "\t" ++ avalStr bs) := by
  constructor
  · unfold hcaLine
    rw [hdata]
    simp only [if_neg hgt]
    rw [hsplit]
    unfold hcaDomainStep
    simp only [if_pos rfl, hs, he, hcur, hl, if_true]
  · intro dom dEval bs ty qd
    simp [annotLine, avalPlus1, avalStr, Int.sub_add_cancel]

theorem C7_coordinate_roundtrip_witness :
    pyInt "4" = .ok 4 ∧ pyInt "9" = .ok 9 ∧
    (hcaLine ([("P1", [])], some "P1") "domain 4 9\n" =
        .ok ([("P1",
          [[AVal.int 3, AVal.int 9, AVal.str "domain", AVal.str "!", AVal.pyNone]])],
          some "P1") ∧
      ∀ dom dEval bs ty qd,
        annotLine qd [AVal.int 3, AVal.int 9, dom, dEval, bs, ty] =
          .ok ("Qdom\t" ++ toString (qd + 1) ++ "\t" ++ avalStr dom ++ "\t" ++
            "4" ++ "\t" ++ "9" ++ "\t" ++ avalStr dEval ++ "\t" ++ avalStr bs)) :=
  ⟨rfl, rfl,
    @C7_coordinate_roundtrip ([("P1", [])], some "P1") "domain 4 9\n" 'd'
      "omain 4 9\n".data "P1" [] "4" "9" [] 4 9 rfl (by decide) rfl rfl rfl rfl rfl⟩

/-! ### Theorems for C8 (format selector dispatch) -/

/-- C8: `read_annotation` exits the process with status 1 (non-zero) for
every format selector other than `"seghca"` and `"pfam"`; for the two
recognized selectors it returns the parsed mapping and never exits. -/
theorem C8_format_dispatch (lines : List String) (formatf : String) :
    (formatf ≠ "seghca" → formatf ≠ "pfam" →
      ∃ c, c ≠ 0 ∧ read_annot lines formatf = .exit c) ∧
    (∀ a, read_hcadomain lines = .ok a → read_annot lines "seghca" = .ok a) ∧
    (∀ a, read_pfamdomain lines = .ok a → read_annot lines "pfam" = .ok a) ∧
    (∀ c, read_annot lines "seghca" ≠ .exit c) ∧
    (∀ c, read_annot lines "pfam" ≠ .exit c) := by
  have hne : ("pfam" : String) ≠ "seghca" := by decide
  refine ⟨fun h1 h2 => ⟨1, one_ne_zero, by simp [read_annot, h1, h2]⟩, ?_, ?_, ?_, ?_⟩
  · intro a h
    simp [read_annot, h]
  · intro a h
    simp [read_annot, hne, h]
  · intro c hcon
    rcases hr : read_hcadomain lines with m | a <;> simp [read_annot, hr] at hcon
  · intro c hcon
    rcases hr : read_pfamdomain lines with m | a <;> simp [read_annot, hne, hr] at hcon

theorem C8_format_dispatch_witness :
    ("txt" : String) ≠ "seghca" ∧ ("txt" : String) ≠ "pfam" ∧
    ∃ c, c ≠ 0 ∧ read_annot [] "txt" = .exit c :=
  ⟨by decide, by decide, (C8_format_dispatch [] "txt").1 (by decide) (by decide)⟩

/-! ### Theorems for C10 (five-element tuples vs six-name unpack) -/

theorem annotLine_len5 (qd : Nat) (t : List AVal) (h : t.length = 5) :
    annotLine qd t = .error "ValueError: unpack" := by
  rcases t with _ | ⟨a, t⟩
  · simp at h
  rcases t with _ | ⟨b, t⟩
  · simp at h
  rcases t with _ | ⟨c, t⟩
  · simp at h
  rcases t with _ | ⟨d, t⟩
  · simp at h
  rcases t with _ | ⟨e, t⟩
  · simp at h
  rcases t with _ | ⟨f, t⟩
  · rfl
  · simp only [List.length_cons] at h
    omega

theorem all5_dinsert {m : Dict String (List (List AVal))} {k : String}
    {l : List (List AVal)} (hm : all5 m) (hl : ∀ t ∈ l, t.length = 5) :
    all5 (dinsert m k l) := by
  intro p l' hmem t ht
  rcases mem_dinsert hmem with h | ⟨_, rfl⟩
  · exact hm p l' h t ht
  · exact hl t ht

theorem hcaDomainStep_all5 {st st' : Dict String (List (List AVal)) × Option String}
    {tmp : List String} (h : hcaDomainStep st tmp = .ok st') (h5 : all5 st.1) :
    all5 st'.1 := by
  unfold hcaDomainStep at h
  split at h
  · cases h
  next tmp0 rest =>
    split at h
    · split at h
      next t1 t2 tl =>
        split at h
        next s e hs he =>
          split at h
          · cases h
          next prot hprot =>
            split at h
            · cases h
            next l hlk =>
              cases h
              refine all5_dinsert h5 ?_
              intro t ht
              rcases List.mem_append.mp ht with ht | ht
              · exact h5 prot l (mem_of_dlookup hlk) t ht
              · rcases List.mem_singleton.mp ht with rfl
                rfl
        · cases h
        · cases h
      · cases h
    · cases h
      exact h5

theorem hcaLine_all5 {st st' : Dict String (List (List AVal)) × Option String}
    {line : String} (h : hcaLine st line = .ok st') (h5 : all5 st.1) : all5 st'.1 := by
  unfold hcaLine at h
  split at h
  · cases h
  next c cs =>
    split at h
    · split at h
      next prot sz =>
        cases h
        exact all5_dinsert h5 (by intro t ht; cases ht)
      · cases h
    · exact hcaDomainStep_all5 h h5

theorem foldlM_hca_all5 :
    ∀ (lines : List String) (st st' : Dict String (List (List AVal)) × Option String),
      lines.foldlM hcaLine st = .ok st' → all5 st.1 → all5 st'.1
  | [], st, st', h, h5 => by
    simp only [List.foldlM_nil] at h
    cases h
    exact h5
  | a :: ls, st, st', h, h5 => by
    rw [List.foldlM_cons] at h
    rcases hh : hcaLine st a with m | st1
    · rw [hh] at h
      cases h
    · rw [hh] at h
      exact foldlM_hca_all5 ls st1 st' h (hcaLine_all5 hh h5)

theorem read_hcadomain_all5 {lines : List String} {m : Dict String (List (List AVal))}
    (h : read_hcadomain lines = .ok m) : all5 m := by
  unfold read_hcadomain at h
  rcases hf : lines.foldlM hcaLine ([], Option.none) with msg | st'
  · rw [hf] at h
    cases h
  · rw [hf] at h
    have h5 := foldlM_hca_all5 lines _ st' hf (by intro p l hm; cases hm)
    cases h
    exact h5

theorem all5_getD {m : Dict String (List (List AVal))} (h5 : all5 m) (k : String) :
    ∀ t ∈ (dlookup m k).getD [], t.length = 5 := by
  rcases hg : dlookup m k with _ | l0
  · simp
  · intro t ht
    exact h5 k l0 (mem_of_dlookup hg) t (by simpa using ht)

theorem pfamLine_all5 {m m' : Dict String (List (List AVal))} {line : String}
    (h : pfamLine m line = .ok m') (h5 : all5 m) : all5 m' := by
  unfold pfamLine at h
  split at h
  · cases h
  · split at h
    · cases h
      exact h5
    · split at h
      · split at h
        · cases h
          refine all5_dinsert h5 ?_
          intro t ht
          rcases List.mem_append.mp ht with ht | ht
          · exact all5_getD h5 _ t ht
          · rcases List.mem_singleton.mp ht with rfl
            rfl
        · cases h
        · cases h
      · cases h

theorem foldlM_pfam_all5 :
    ∀ (lines : List String) (m m' : Dict String (List (List AVal))),
      lines.foldlM pfamLine m = .ok m' → all5 m → all5 m'
  | [], m, m', h, h5 => by
    simp only [List.foldlM_nil] at h
    cases h
    exact h5
  | a :: ls, m, m', h, h5 => by
    rw [List.foldlM_cons] at h
    rcases hh : pfamLine m a with msg | m1
    · rw [hh] at h
      cases h
    · rw [hh] at h
      exact foldlM_pfam_all5 ls m1 m' h (pfamLine_all5 hh h5)

theorem read_pfamdomain_all5 {lines : List String} {m : Dict String (List (List AVal))}
    (h : read_pfamdomain lines = .ok m) : all5 m :=
  foldlM_pfam_all5 lines [] m h (by intro p l hm; cases hm)

theorem mapM_head_error {qd : Nat} {t : List AVal} {ts : List (List AVal)} {m : String}
    (h : annotLine qd t = .error m) :
    (t :: ts).mapM (annotLine qd) = .error m := by
  rw [List.mapM_cons, h]
  rfl

/-- C10: both annotation readers produce five-element tuples while the
annotation loop of `write_tremolo_results` unpacks six names, so rendering
any protein that carries a non-empty annotation list produced by either
reader raises a tuple-unpacking error instead of emitting annotation
lines. -/
theorem C10_annotation_arity (lines : List String) (m : Dict String (List (List AVal)))
    (prot : String) (l : List (List AVal)) (qd : Nat)
    (hread : read_hcadomain lines = .ok m ∨ read_pfamdomain lines = .ok m)
    (hl : dlookup m prot = some l) (hne : l ≠ []) :
    annotBlock qd m prot = .error "ValueError: unpack" := by
  have h5 : all5 m := by
    rcases hread with h | h
    · exact read_hcadomain_all5 h
    · exact read_pfamdomain_all5 h
  rcases l with _ | ⟨t, ts⟩
  · exact absurd rfl hne
  have ht5 : t.length = 5 := h5 prot _ (mem_of_dlookup hl) t (List.mem_cons_self _ _)
  unfold annotBlock
  rw [hl]
  exact mapM_head_error (annotLine_len5 qd t ht5)

theorem C10_annotation_arity_witness :
    read_hcadomain [">P1 10\n", "domain 4 9\n"] =
      .ok [("P1", [[AVal.int 3, AVal.int 9, AVal.str "domain", AVal.str "!", AVal.pyNone]])] ∧
    ([[AVal.int 3, AVal.int 9, AVal.str "domain", AVal.str "!", AVal.pyNone]] :
      List (List AVal)) ≠ [] ∧
    annotBlock 0 [("P1", [[AVal.int 3, AVal.int 9, AVal.str "domain", AVal.str "!",
      AVal.pyNone]])] "P1" = .error "ValueError: unpack" :=
  ⟨rfl, by simp,
    C10_annotation_arity [">P1 10\n", "domain 4 9\n"] _ "P1" _ 0 (Or.inl rfl) rfl (by simp)⟩

/-! ### Minimum helper lemmas -/

theorem min?_cons_eq (x : ℚ) (xs : List ℚ) : (x :: xs).min? = some (xs.foldl min x) := rfl

theorem foldl_min_eq_self : ∀ (xs : List ℚ) (x : ℚ), (∀ y ∈ xs, x ≤ y) →
    xs.foldl min x = x
  | [], x, _ => rfl
  | y :: ys, x, h => by
    simp only [List.foldl_cons]
    rw [min_eq_left (h y (List.mem_cons_self _ _))]
    exact foldl_min_eq_self ys x fun z hz => h z (List.mem_cons_of_mem _ hz)

theorem foldl_min_mem : ∀ (xs : List ℚ) (x : ℚ), xs.foldl min x ∈ x :: xs
  | [], x => by simp
  | y :: ys, x => by
    simp only [List.foldl_cons]
    rcases le_total x y with h | h
    · rw [min_eq_left h]
      rcases List.mem_cons.mp (foldl_min_mem ys x) with h' | h'
      · rw [h']
        exact List.mem_cons_self _ _
      · exact List.mem_cons_of_mem _ (List.mem_cons_of_mem _ h')
    · rw [min_eq_right h]
      rcases List.mem_cons.mp (foldl_min_mem ys y) with h' | h'
      · rw [h']
        exact List.mem_cons_of_mem _ (List.mem_cons_self _ _)
      · exact List.mem_cons_of_mem _ (List.mem_cons_of_mem _ h')

theorem foldl_min_le : ∀ (xs : List ℚ) (x : ℚ),
    xs.foldl min x ≤ x ∧ ∀ y ∈ xs, xs.foldl min x ≤ y
  | [], x => ⟨le_refl x, by simp⟩
  | y :: ys, x => by
    simp only [List.foldl_cons]
    obtain ⟨h1, h2⟩ := foldl_min_le ys (min x y)
    refine ⟨h1.trans (min_le_left x y), fun z hz => ?_⟩
    rcases List.mem_cons.mp hz with hz | hz
    · rw [hz]
      exact h1.trans (min_le_right x y)
    · exact h2 z hz

theorem min?_spec {xs : List ℚ} {a : ℚ} (h : xs.min? = some a) :
    a ∈ xs ∧ ∀ b ∈ xs, a ≤ b := by
  rcases xs with _ | ⟨x, ys⟩
  · cases h
  · rw [min?_cons_eq] at h
    cases h
    refine ⟨foldl_min_mem ys x, fun b hb => ?_⟩
    rcases List.mem_cons.mp hb with hb | hb
    · rw [hb]
      exact (foldl_min_le ys x).1
    · exact (foldl_min_le ys x).2 b hb

theorem min?_isSome_of_ne_nil {xs : List ℚ} (h : xs ≠ []) : ∃ a, xs.min? = some a := by
  rcases xs with _ | ⟨x, ys⟩
  · exact absurd rfl h
  · exact ⟨ys.foldl min x, rfl⟩

theorem min?_eq_of_perm {xs ys : List ℚ} (h : xs.Perm ys) : xs.min? = ys.min? := by
  rcases hx : xs.min? with _ | a
  · rcases hy : ys.min? with _ | b
    · rfl
    · obtain ⟨hb, _⟩ := min?_spec hy
      have : b ∈ xs := h.mem_iff.mpr hb
      rcases xs with _ | ⟨x, zs⟩
      · cases this
      · cases hx
  · rcases hy : ys.min? with _ | b
    · obtain ⟨ha, _⟩ := min?_spec hx
      have : a ∈ ys := h.mem_iff.mp ha
      rcases ys with _ | ⟨y, zs⟩
      · cases this
      · cases hy
    · obtain ⟨ha, hale⟩ := min?_spec hx
      obtain ⟨hb, hble⟩ := min?_spec hy
      have h1 : a ≤ b := hale b (h.mem_iff.mpr hb)
      have h2 : b ≤ a := hble a (h.mem_iff.mp ha)
      rw [le_antisymm h1 h2]

theorem combineMin_some (c e : ℚ) : combineMin (some c) e = min c e := by
  by_cases h : e < c
  · show (if e < c then e else c) = min c e
    rw [if_pos h, min_eq_right (le_of_lt h)]
  · show (if e < c then e else c) = min c e
    rw [if_neg h, min_eq_left (le_of_not_lt h)]

theorem ofold_some (c : ℚ) (es : List ℚ) : ofold (some c) es = some (es.foldl min c) := by
  induction es generalizing c with
  | nil => rfl
  | cons e es ih =>
    simp only [ofold, combineMin_some, List.foldl_cons]
    exact ih (min c e)

theorem ofold_none (es : List ℚ) : ofold Option.none es = es.min? := by
  rcases es with _ | ⟨e, es⟩
  · rfl
  · simp only [ofold, combineMin, min?_cons_eq]
    exact ofold_some e es

/-! ### `updateMin` and `flatresHits` lemmas -/

theorem dlookup_updateMin_self (orders : Dict String ℚ) (name : String) (e : ℚ) :
    dlookup (updateMin orders name e) name = some (combineMin (dlookup orders name) e) := by
  unfold updateMin
  rcases h : dlookup orders name with _ | c
  · simp [dlookup_dinsert_self, combineMin]
  · by_cases he : e < c
    · simp [he, dlookup_dinsert_self, combineMin]
    · simp [he, h, combineMin]

theorem dlookup_updateMin_ne (orders : Dict String ℚ) (name q : String) (e : ℚ)
    (h : q ≠ name) : dlookup (updateMin orders name e) q = dlookup orders q := by
  unfold updateMin
  rcases dlookup orders name with _ | c
  · exact dlookup_dinsert_ne _ _ _ _ h
  · by_cases he : e < c
    · simp [he, dlookup_dinsert_ne _ _ _ _ h]
    · simp [he]

theorem nodup_updateMin (orders : Dict String ℚ) (name : String) (e : ℚ)
    (h : (dkeys orders).Nodup) : (dkeys (updateMin orders name e)).Nodup := by
  unfold updateMin
  rcases dlookup orders name with _ | c
  · exact nodup_dkeys_dinsert _ _ _ h
  · by_cases he : e < c
    · simp only [he, if_true]
      exact nodup_dkeys_dinsert _ _ _ h
    · simpa [he] using h

theorem flatresHits_snd_self (name : String) :
    ∀ (hits : List (Nat × Hit)) (flatName : Dict Nat (List Field)) (orders : Dict String ℚ),
      dlookup (flatresHits name hits flatName orders).2 name =
        ofold (dlookup orders name) (hits.map fun q => q.2.Evalue)
  | [], flatName, orders => rfl
  | q :: rest, flatName, orders => by
    simp only [flatresHits, List.map_cons, ofold]
    rw [flatresHits_snd_self name rest _ _, dlookup_updateMin_self]

theorem flatresHits_snd_ne (name q : String) (h : q ≠ name) :
    ∀ (hits : List (Nat × Hit)) (flatName : Dict Nat (List Field)) (orders : Dict String ℚ),
      dlookup (flatresHits name hits flatName orders).2 q = dlookup orders q
  | [], flatName, orders => rfl
  | p :: rest, flatName, orders => by
    simp only [flatresHits]
    rw [flatresHits_snd_ne name q h rest _ _, dlookup_updateMin_ne _ _ _ _ h]

theorem flatresHits_snd_nodup (name : String) :
    ∀ (hits : List (Nat × Hit)) (flatName : Dict Nat (List Field)) (orders : Dict String ℚ),
      (dkeys orders).Nodup → (dkeys (flatresHits name hits flatName orders).2).Nodup
  | [], flatName, orders, h => h
  | p :: rest, flatName, orders, h => by
    simp only [flatresHits]
    exact flatresHits_snd_nodup name rest _ _ (nodup_updateMin _ _ _ h)

theorem flatresHits_fst (name : String) :
    ∀ (hits : List (Nat × Hit)) (flatName : Dict Nat (List Field)) (orders : Dict String ℚ),
      (flatresHits name hits flatName orders).1 = flatFold flatName hits
  | [], flatName, orders => rfl
  | p :: rest, flatName, orders => by
    simp only [flatresHits, flatFold, List.foldl_cons]
    exact flatresHits_fst name rest _ _

/-! ### `flatresProts` lemmas -/

theorem flatresProts_ok (targets : Dict String (Dict Nat Hit)) :
    ∀ (prots : List String) (flat : Dict String (Dict Nat (List Field)))
      (orders : Dict String ℚ),
      (∀ p ∈ prots, ∃ hs, dlookup targets p = some hs) →
      ∃ flatF ordersF, flatresProts targets prots flat orders = .ok (flatF, ordersF)
  | [], flat, orders, _ => ⟨flat, orders, rfl⟩
  | name :: rest, flat, orders, hall => by
    obtain ⟨hs, hlk⟩ := hall name (List.mem_cons_self _ _)
    simp only [flatresProts, hlk]
    exact flatresProts_ok targets rest _ _
      fun p hp => hall p (List.mem_cons_of_mem _ hp)

theorem flatresProts_orders (targets : Dict String (Dict Nat Hit)) :
    ∀ (prots : List String) (flat : Dict String (Dict Nat (List Field)))
      (orders : Dict String ℚ) (flatF : Dict String (Dict Nat (List Field)))
      (ordersF : Dict String ℚ),
      flatresProts targets prots flat orders = .ok (flatF, ordersF) → prots.Nodup →
      ∀ q, dlookup ordersF q =
        if q ∈ prots then ofold (dlookup orders q) (evalList targets q) else dlookup orders q
  | [], flat, orders, flatF, ordersF, hok, _, q => by
    cases hok
    simp
  | name :: rest, flat, orders, flatF, ordersF, hok, hnd, q => by
    simp only [flatresProts] at hok
    rcases hlk : dlookup targets name with _ | hits
    · rw [hlk] at hok
      cases hok
    · rw [hlk] at hok
      simp only [List.nodup_cons] at hnd
      have ih := flatresProts_orders targets rest _ _ _ _ hok hnd.2
      by_cases hq : q = name
      · subst hq
        rw [ih q, if_neg hnd.1, flatresHits_snd_self]
        rw [if_pos (List.mem_cons_self _ _)]
        unfold evalList
        rw [hlk]
        rfl
      · rw [ih q, flatresHits_snd_ne name q hq]
        by_cases hqr : q ∈ rest
        · rw [if_pos hqr, if_pos (List.mem_cons_of_mem _ hqr)]
        · rw [if_neg hqr, if_neg (by simp [hq, hqr])]

theorem flatresProts_nodup (targets : Dict String (Dict Nat Hit)) :
    ∀ (prots : List String) (flat : Dict String (Dict Nat (List Field)))
      (orders : Dict String ℚ) (flatF : Dict String (Dict Nat (List Field)))
      (ordersF : Dict String ℚ),
      flatresProts targets prots flat orders = .ok (flatF, ordersF) →
      (dkeys orders).Nodup → (dkeys ordersF).Nodup
  | [], flat, orders, flatF, ordersF, hok, hnd => by
    cases hok
    exact hnd
  | name :: rest, flat, orders, flatF, ordersF, hok, hnd => by
    simp only [flatresProts] at hok
    rcases hlk : dlookup targets name with _ | hits
    · rw [hlk] at hok
      cases hok
    · rw [hlk] at hok
      exact flatresProts_nodup targets rest _ _ _ _ hok
        (flatresHits_snd_nodup name hits _ _ hnd)

theorem flatresProts_flat (targets : Dict String (Dict Nat Hit)) :
    ∀ (prots : List String) (flat : Dict String (Dict Nat (List Field)))
      (orders : Dict String ℚ) (flatF : Dict String (Dict Nat (List Field)))
      (ordersF : Dict String ℚ),
      flatresProts targets prots flat orders = .ok (flatF, ordersF) → prots.Nodup →
      ∀ q, dlookup flatF q =
        if q ∈ prots then some (flatFold [] ((dlookup targets q).getD []))
        else dlookup flat q
  | [], flat, orders, flatF, ordersF, hok, _, q => by
    cases hok
    simp
  | name :: rest, flat, orders, flatF, ordersF, hok, hnd, q => by
    simp only [flatresProts] at hok
    rcases hlk : dlookup targets name with _ | hits
    · rw [hlk] at hok
      cases hok
    · rw [hlk] at hok
      simp only [List.nodup_cons] at hnd
      have ih := flatresProts_flat targets rest _ _ _ _ hok hnd.2
      by_cases hq : q = name
      · subst hq
        rw [ih q, if_neg hnd.1, if_pos (List.mem_cons_self _ _), hlk]
        rw [dlookup_dinsert_self, flatresHits_fst]
        rfl
      · rw [ih q]
        by_cases hqr : q ∈ rest
        · rw [if_pos hqr, if_pos (List.mem_cons_of_mem _ hqr)]
        · rw [if_neg hqr, if_neg (by simp [hq, hqr]), dlookup_dinsert_ne _ _ _ _ hq]

/-- Inversion of a successful `flatres` call. -/
theorem flatres_ok_inv {targets : Dict String (Dict Nat Hit)} {prots : List String}
    {order : List String} {flat : Dict String (Dict Nat (List Field))}
    (h : flatres targets prots = .ok (order, flat)) :
    ∃ ordersF, flatresProts targets prots [] [] = .ok (flat, ordersF) ∧
      order = (List.insertionSort pairLE (ordersF.map fun p => (p.2, p.1))).map (·.2) ∧
      (List.insertionSort pairLE (ordersF.map fun p => (p.2, p.1))) ≠ [] := by
  unfold flatres at h
  split at h
  · cases h
  next flatF ordersF hfp =>
    unfold flatresPost at h
    split at h
    · cases h
    next q qs hsort =>
      cases h
      exact ⟨ordersF, hfp, by rw [hsort], by rw [hsort]; simp⟩

theorem flatres_eq (targets : Dict String (Dict Nat Hit)) (prots : List String)
    {f : Dict String (Dict Nat (List Field))} {o : Dict String ℚ}
    (h : flatresProts targets prots [] [] = .ok (f, o)) :
    flatres targets prots = flatresPost f o := by
  unfold flatres
  rw [h]

theorem flatresPost_nil {f : Dict String (Dict Nat (List Field))} {o : Dict String ℚ}
    (h : List.insertionSort pairLE (o.map fun pr => (pr.2, pr.1)) = []) :
    flatresPost f o = .error "ValueError: not enough values to unpack" := by
  unfold flatresPost
  rw [h]

theorem flatresPost_cons {f : Dict String (Dict Nat (List Field))} {o : Dict String ℚ}
    {q0 : ℚ × String} {qs : List (ℚ × String)}
    (h : List.insertionSort pairLE (o.map fun pr => (pr.2, pr.1)) = q0 :: qs) :
    flatresPost f o = .ok (((q0 :: qs).map (·.2)), f) := by
  unfold flatresPost
  rw [h]

/-! ### Theorems for C1 (protein ordering of `flatres`) -/

/-- C1 counterexample: two proteins first observed in the order `B`, `A`,
with equal best e-values.  `flatres` returns `["A", "B"]` — the tie is
re-sorted by protein id — while the claimed first-seen tie rule
(`specStableOrder`) yields `["B", "A"]`. -/
theorem C1_counterexample :
    (flatres [("B", [(0, sampleHit 1)]), ("A", [(0, sampleHit 1)])] ["B", "A"]).toOption.map
        Prod.fst = some ["A", "B"] ∧
    specStableOrder [("B", [(0, sampleHit 1)]), ("A", [(0, sampleHit 1)])] ["B", "A"] =
      .ok ["B", "A"] ∧
    (["A", "B"] : List String) ≠ ["B", "A"] :=
  ⟨rfl, rfl, by decide⟩

/-- C1 (amended): the order returned by `flatres` is sorted ascending by
each protein's best (minimum) e-value over its hits, and proteins whose
best e-values are exactly equal appear re-sorted ascending by protein id
(Python tuple comparison of `(e_value, protein)`), not in first-seen
order. -/
theorem C1_order_sorted {targets : Dict String (Dict Nat Hit)} {proteins : List String}
    {order : List String} {flat : Dict String (Dict Nat (List Field))}
    (hnd : proteins.Nodup) (hok : flatres targets proteins = .ok (order, flat)) :
    order.Pairwise (fun p1 p2 => ∃ e1 e2, protMin targets p1 = some e1 ∧
      protMin targets p2 = some e2 ∧ (e1 < e2 ∨ (e1 = e2 ∧ strLt p1 p2))) := by
  obtain ⟨ordersF, hfp, horder, hne⟩ := flatres_ok_inv hok
  have hords := flatresProts_orders targets proteins [] [] flat ordersF hfp hnd
  have hnodK : (dkeys ordersF).Nodup :=
    flatresProts_nodup targets proteins [] [] flat ordersF hfp (by simp)
  have hsorted : List.Sorted pairLE
      (List.insertionSort pairLE (ordersF.map fun p => (p.2, p.1))) :=
    List.sorted_insertionSort pairLE _
  have hperm : (List.insertionSort pairLE (ordersF.map fun p => (p.2, p.1))).Perm
      (ordersF.map fun p => (p.2, p.1)) := List.perm_insertionSort pairLE _
  have hfact : ∀ ep ∈ List.insertionSort pairLE (ordersF.map fun p => (p.2, p.1)),
      protMin targets ep.2 = some ep.1 := by
    intro ep hmem
    have hmem2 : ep ∈ ordersF.map fun p => (p.2, p.1) := hperm.mem_iff.mp hmem
    obtain ⟨pe, hpe, heq⟩ := List.mem_map.mp hmem2
    have hl : dlookup ordersF pe.1 = some pe.2 := dlookup_of_mem hnodK hpe
    rw [hords pe.1] at hl
    by_cases hp : pe.1 ∈ proteins
    · rw [if_pos hp, show dlookup ([] : Dict String ℚ) pe.1 = Option.none from rfl,
        ofold_none] at hl
      subst heq
      unfold protMin
      unfold evalList at hl
      rcases hlk : dlookup targets pe.1 with _ | hits
      · rw [hlk] at hl
        simp at hl
      · rw [hlk] at hl
        simpa using hl
    · rw [if_neg hp] at hl
      simp [dlookup] at hl
  have hnodOrder : order.Nodup := by
    rw [horder]
    have h1 : ((List.insertionSort pairLE (ordersF.map fun p => (p.2, p.1))).map (·.2)).Perm
        ((ordersF.map fun p => (p.2, p.1)).map (·.2)) := hperm.map _
    have h2 : ((ordersF.map fun p => (p.2, p.1)).map (·.2)) = dkeys ordersF := by
      simp [dkeys, List.map_map]
    rw [h2] at h1
    exact h1.symm.nodup hnodK
  have hneq : (List.insertionSort pairLE (ordersF.map fun p => (p.2, p.1))).Pairwise
      (fun a b => a.2 ≠ b.2) := by
    rw [horder] at hnodOrder
    exact List.pairwise_map.mp hnodOrder
  have hcomb := hsorted.and hneq
  rw [horder]
  refine List.pairwise_map.mpr (hcomb.imp_of_mem ?_)
  intro a b ha hb hab
  obtain ⟨hle, hne2⟩ := hab
  have hle' : a.1 < b.1 ∨ (a.1 = b.1 ∧ strLe a.2 b.2) := hle
  refine ⟨a.1, b.1, hfact a ha, hfact b hb, ?_⟩
  rcases hle' with h | ⟨heq, hsle⟩
  · exact Or.inl h
  · exact Or.inr ⟨heq, strLe_lt_of_ne hsle hne2⟩

theorem C1_order_sorted_witness :
    (["A", "B"] : List String).Nodup ∧
    (["B", "A"] : List String).Pairwise (fun p1 p2 =>
      ∃ e1 e2, protMin [("A", [(0, sampleHit 2)]), ("B", [(0, sampleHit 1)])] p1 = some e1 ∧
        protMin [("A", [(0, sampleHit 2)]), ("B", [(0, sampleHit 1)])] p2 = some e2 ∧
        (e1 < e2 ∨ (e1 = e2 ∧ strLt p1 p2))) :=
  ⟨by decide,
    @C1_order_sorted [("A", [(0, sampleHit 2)]), ("B", [(0, sampleHit 1)])] ["A", "B"]
      ["B", "A"]
      [("A", [(0, hitFields (sampleHit 2))]), ("B", [(0, hitFields (sampleHit 1))])]
      (by decide) rfl⟩

/-! ### Theorems for C5 (zero-hit proteins and the empty-order failure) -/

/-- C5: a protein with zero hits never appears in the returned `order`; when
no given protein has any hit the `(e-value, protein)` pair list is empty and
the final unpacking in `flatres` is an explicit failure (`ValueError`), and
under the precondition that at least one given protein has a hit, `flatres`
returns normally. -/
theorem C5_zero_hits (targets : Dict String (Dict Nat Hit)) (proteins : List String)
    (hnd : proteins.Nodup)
    (hall : ∀ p ∈ proteins, ∃ hs, dlookup targets p = some hs) :
    ((∃ p ∈ proteins, ∃ hs, dlookup targets p = some hs ∧ hs ≠ []) →
      ∃ order flat, flatres targets proteins = .ok (order, flat) ∧
        ∀ q ∈ proteins, dlookup targets q = some [] → q ∉ order) ∧
    ((∀ p ∈ proteins, dlookup targets p = some []) →
      flatres targets proteins = .error "ValueError: not enough values to unpack") := by
  obtain ⟨flatF, ordersF, hfp⟩ := flatresProts_ok targets proteins [] [] hall
  have hords := flatresProts_orders targets proteins [] [] flatF ordersF hfp hnd
  constructor
  · rintro ⟨p, hp, hs, hlk, hpne⟩
    have h1 : dlookup ordersF p = (evalList targets p).min? := by
      rw [hords p, if_pos hp]
      exact ofold_none _
    have h2 : evalList targets p ≠ [] := by
      unfold evalList
      rw [hlk]
      rcases hs with _ | ⟨q0, qs⟩
      · exact absurd rfl hpne
      · simp
    obtain ⟨a, ha⟩ := min?_isSome_of_ne_nil h2
    have hmem : p ∈ dkeys ordersF := by
      rw [← dlookup_isSome_iff, h1, ha]
      rfl
    have hsne : List.insertionSort pairLE (ordersF.map fun pr => (pr.2, pr.1)) ≠ [] := by
      intro hc
      have hlen := (List.perm_insertionSort pairLE
        (ordersF.map fun pr => (pr.2, pr.1))).length_eq
      rw [hc] at hlen
      rcases hF : ordersF with _ | ⟨pr, rest⟩
      · rw [hF] at hmem
        cases hmem
      · rw [hF] at hlen
        simp at hlen
    rcases hsort : List.insertionSort pairLE (ordersF.map fun pr => (pr.2, pr.1)) with
      _ | ⟨q0, qs⟩
    · exact absurd hsort hsne
    refine ⟨(q0 :: qs).map (·.2), flatF, ?_, ?_⟩
    · rw [flatres_eq targets proteins hfp]
      exact flatresPost_cons hsort
    · intro q hq hq0 hqin
      have hqnone : dlookup ordersF q = Option.none := by
        rw [hords q, if_pos hq,
          show evalList targets q = [] from by unfold evalList; rw [hq0]; rfl]
        rfl
      have hqk : q ∉ dkeys ordersF := (dlookup_eq_none_iff _ _).mp hqnone
      apply hqk
      have hperm := List.perm_insertionSort pairLE (ordersF.map fun pr => (pr.2, pr.1))
      rw [hsort] at hperm
      have hq2 : q ∈ (ordersF.map fun pr => (pr.2, pr.1)).map (·.2) :=
        (hperm.map (·.2)).mem_iff.mp hqin
      simpa [dkeys, List.map_map] using hq2
  · intro hall0
    have hnone : ∀ q, dlookup ordersF q = Option.none := by
      intro q
      rw [hords q]
      by_cases hq : q ∈ proteins
      · rw [if_pos hq,
          show evalList targets q = [] from by unfold evalList; rw [hall0 q hq]; rfl]
        rfl
      · rw [if_neg hq]
        rfl
    have hordF : ordersF = [] := by
      rcases hF : ordersF with _ | ⟨pr, rest⟩
      · rfl
      · exfalso
        have hc := hnone pr.1
        rw [hF] at hc
        simp [dlookup] at hc
    rw [flatres_eq targets proteins hfp]
    exact flatresPost_nil (by rw [hordF]; rfl)

theorem C5_zero_hits_witness :
    ∃ order flat,
      flatres [("P", [(0, sampleHit 1)]), ("Z", [])] ["P", "Z"] = .ok (order, flat) ∧
      ∀ q ∈ ["P", "Z"], dlookup [("P", [(0, sampleHit 1)]), ("Z", [])] q = some [] →
        q ∉ order := by
  refine (C5_zero_hits _ _ (by decide) ?_).1 ⟨"P", by simp, [(0, sampleHit 1)], rfl, by simp⟩
  intro p hp
  rcases List.mem_cons.mp hp with h1 | h1
  · exact ⟨[(0, sampleHit 1)], by rw [h1]; rfl⟩
  · have h2 : p = "Z" := by simpa using h1
    exact ⟨[], by rw [h2]; rfl⟩

/-! ### Theorems for C9 (the 15-element display list) -/

theorem flatFold_not_mem : ∀ (hits : List (Nat × Hit)) (fn : Dict Nat (List Field))
    (h : Nat), h ∉ hits.map (·.1) → dlookup (flatFold fn hits) h = dlookup fn h
  | [], fn, h, _ => rfl
  | q :: rest, fn, h, hnm => by
    simp only [List.map_cons, List.mem_cons] at hnm
    push_neg at hnm
    show dlookup (flatFold (dinsert fn q.1 (hitFields q.2)) rest) h = dlookup fn h
    rw [flatFold_not_mem rest _ h hnm.2]
    exact dlookup_dinsert_ne _ _ _ _ hnm.1

theorem flatFold_lookup : ∀ (hits : List (Nat × Hit)) (fn : Dict Nat (List Field))
    (h : Nat) (res : Hit), (hits.map (·.1)).Nodup → (h, res) ∈ hits →
    dlookup (flatFold fn hits) h = some (hitFields res)
  | [], _, _, _, _, hm => by cases hm
  | q :: rest, fn, h, res, hnd, hm => by
    simp only [List.map_cons, List.nodup_cons] at hnd
    rcases List.mem_cons.mp hm with hm | hm
    · have h1 : h = q.1 := congrArg Prod.fst hm
      have h2 : res = q.2 := congrArg Prod.snd hm
      subst h1
      show dlookup (flatFold (dinsert fn q.1 (hitFields q.2)) rest) q.1 = _
      rw [flatFold_not_mem rest _ _ hnd.1, dlookup_dinsert_self, h2]
    · show dlookup (flatFold (dinsert fn q.1 (hitFields q.2)) rest) h = _
      exact flatFold_lookup rest _ h res hnd.2 hm

/-- C9: for every flattened hit, `flat[protein][hit]` is exactly the
15-element display list, in the order: e-value, description, probability,
score, identity, similarity, summed-probability, query-start, query-stop,
template-start, template-stop, query-alignment, query-consensus,
template-alignment, template-consensus. -/
theorem C9_flat_fields {targets : Dict String (Dict Nat Hit)} {proteins : List String}
    {order : List String} {flat : Dict String (Dict Nat (List Field))}
    {p : String} {hits : Dict Nat Hit} {h : Nat} {res : Hit}
    (hnd : proteins.Nodup) (hok : flatres targets proteins = .ok (order, flat))
    (hp : p ∈ proteins) (hhits : dlookup targets p = some hits)
    (hkeys : (hits.map (·.1)).Nodup) (hmem : (h, res) ∈ hits) :
    ∃ fl, dlookup flat p = some fl ∧
      dlookup fl h = some [Field.num res.Evalue, Field.str res.descr,
        Field.num res.Probab, Field.num res.Score, Field.num res.Identities,
        Field.num res.Similarity, Field.num res.Sum_probs, Field.int res.Qstart,
        Field.int res.Qstop, Field.int res.Tstart, Field.int res.Tstop,
        Field.str res.Qali, Field.str res.Qcons, Field.str res.Tali,
        Field.str res.Tcons] := by
  obtain ⟨ordersF, hfp, horder, hnemp⟩ := flatres_ok_inv hok
  have hflat := flatresProts_flat targets proteins [] [] flat ordersF hfp hnd
  refine ⟨flatFold [] hits, ?_, ?_⟩
  · rw [hflat p, if_pos hp, hhits]
    rfl
  · rw [flatFold_lookup hits [] h res hkeys hmem]
    rfl

theorem C9_flat_fields_witness :
    ∃ fl, dlookup [("P", [(0, hitFields (sampleHit 1))])] "P" = some fl ∧
      dlookup fl 0 = some [Field.num (sampleHit 1).Evalue, Field.str (sampleHit 1).descr,
        Field.num (sampleHit 1).Probab, Field.num (sampleHit 1).Score,
        Field.num (sampleHit 1).Identities, Field.num (sampleHit 1).Similarity,
        Field.num (sampleHit 1).Sum_probs, Field.int (sampleHit 1).Qstart,
        Field.int (sampleHit 1).Qstop, Field.int (sampleHit 1).Tstart,
        Field.int (sampleHit 1).Tstop, Field.str (sampleHit 1).Qali,
        Field.str (sampleHit 1).Qcons, Field.str (sampleHit 1).Tali,
        Field.str (sampleHit 1).Tcons] :=
  @C9_flat_fields [("P", [(0, sampleHit 1)])] ["P"] ["P"]
    [("P", [(0, hitFields (sampleHit 1))])] "P" [(0, sampleHit 1)] 0 (sampleHit 1)
    (by decide) rfl (by simp) rfl (by decide) (by simp)

/-! ### Theorems for C6 (reverse index protein → arrangement) -/

theorem dlookup_prot2grpAdd (da : String) :
    ∀ (prots : List String) (acc : Dict String String) (p : String),
      dlookup (prot2grpAdd acc da prots) p = if p ∈ prots then some da else dlookup acc p
  | [], acc, p => by simp [prot2grpAdd]
  | q :: rest, acc, p => by
    simp only [prot2grpAdd]
    rw [dlookup_prot2grpAdd da rest _ p]
    by_cases hp : p ∈ rest
    · rw [if_pos hp, if_pos (List.mem_cons_of_mem _ hp)]
    · rw [if_neg hp]
      by_cases hq : p = q
      · rw [if_pos (by rw [hq]; exact List.mem_cons_self _ _)]
        subst hq
        rw [dlookup_dinsert_self]
      · rw [if_neg (by simp [hq, hp]), dlookup_dinsert_ne _ _ _ _ hq]

theorem buildProt2grp_untouched :
    ∀ (grps : List (String × List String)) (acc : Dict String String) (p : String),
      (∀ pr ∈ grps, p ∉ pr.2) →
      dlookup (buildProt2grp grps acc) p = dlookup acc p
  | [], acc, p, _ => rfl
  | (da, prots) :: rest, acc, p, hno => by
    simp only [buildProt2grp]
    rw [buildProt2grp_untouched rest _ p fun pr hpr => hno pr (List.mem_cons_of_mem _ hpr)]
    rw [dlookup_prot2grpAdd, if_neg (hno (da, prots) (List.mem_cons_self _ _))]

theorem buildProt2grp_unique :
    ∀ (grps : List (String × List String)) (acc : Dict String String) (p d0 : String),
      (∀ pr ∈ grps, p ∈ pr.2 → pr.1 = d0) → (∃ pr ∈ grps, p ∈ pr.2) →
      dlookup (buildProt2grp grps acc) p = some d0
  | [], _, p, d0, _, hex => by
    rcases hex with ⟨pr, hpr, _⟩
    cases hpr
  | (da, prots) :: rest, acc, p, d0, huni, hex => by
    simp only [buildProt2grp]
    by_cases hex2 : ∃ pr ∈ rest, p ∈ pr.2
    · exact buildProt2grp_unique rest _ p d0
        (fun pr hpr hm => huni pr (List.mem_cons_of_mem _ hpr) hm) hex2
    · push_neg at hex2
      rw [buildProt2grp_untouched rest _ p hex2]
      rcases hex with ⟨pr, hpr, hm⟩
      rcases List.mem_cons.mp hpr with hpr | hpr
      · have hmem : p ∈ prots := by
          rw [hpr] at hm
          exact hm
        rw [dlookup_prot2grpAdd, if_pos hmem]
        exact congrArg some (huni (da, prots) (List.mem_cons_self _ _) hmem)
      · exact absurd hm (hex2 pr hpr)

theorem collectData_ok (p2g : Dict String String) :
    ∀ (tg : List (String × Dict Nat Hit)) (data : List Row),
      (∀ pr ∈ tg, ∃ da, dlookup p2g pr.1 = some da) →
      ∃ d, collectData p2g tg data = .ok d
  | [], data, _ => ⟨data, rfl⟩
  | (prot, hits) :: rest, data, hall => by
    obtain ⟨da, hda⟩ := hall (prot, hits) (List.mem_cons_self _ _)
    simp only [collectData, hda]
    exact collectData_ok p2g rest _ fun pr hpr => hall pr (List.mem_cons_of_mem _ hpr)

/-- C6: under invariant I4 — every protein of the hit mapping belongs to
exactly one arrangement group — the reverse index `prot2grp` built by
`summary_tremolo` assigns each such protein its uniquely determined
arrangement, and the `prot2grp[prot]` lookup performed for every hit never
fails (the missing-key error branch is unreachable). -/
theorem C6_prot2grp_unique (tgQd : Dict String (Dict Nat Hit))
    (grpQd : Dict String (List String))
    (hI4 : ∀ prot ∈ dkeys tgQd,
      (∃ pr ∈ grpQd, prot ∈ pr.2) ∧
      (∀ pr1 ∈ grpQd, ∀ pr2 ∈ grpQd, prot ∈ pr1.2 → prot ∈ pr2.2 → pr1.1 = pr2.1)) :
    (∀ prot ∈ dkeys tgQd, ∃ da, dlookup (buildProt2grp grpQd []) prot = some da ∧
      ∀ pr ∈ grpQd, prot ∈ pr.2 → pr.1 = da) ∧
    ∃ d, collectData (buildProt2grp grpQd []) tgQd [] = .ok d := by
  have hmain : ∀ prot ∈ dkeys tgQd, ∃ da, dlookup (buildProt2grp grpQd []) prot = some da ∧
      ∀ pr ∈ grpQd, prot ∈ pr.2 → pr.1 = da := by
    intro prot hp
    obtain ⟨⟨pr0, hpr0, hm0⟩, huni⟩ := hI4 prot hp
    refine ⟨pr0.1, buildProt2grp_unique grpQd [] prot pr0.1 ?_ ⟨pr0, hpr0, hm0⟩, ?_⟩
    · intro pr hpr hm
      exact huni pr hpr pr0 hpr0 hm hm0
    · intro pr hpr hm
      exact huni pr hpr pr0 hpr0 hm hm0
  refine ⟨hmain, collectData_ok _ tgQd [] ?_⟩
  intro pr hpr
  obtain ⟨da, hda, _⟩ := hmain pr.1 (List.mem_map_of_mem _ hpr)
  exact ⟨da, hda⟩

theorem C6_prot2grp_unique_witness :
    (∀ prot ∈ dkeys ([("P", [(0, sampleHit 1)])] : Dict String (Dict Nat Hit)),
      ∃ da, dlookup (buildProt2grp [("DA", ["P"])] []) prot = some da ∧
        ∀ pr ∈ ([("DA", ["P"])] : Dict String (List String)), prot ∈ pr.2 → pr.1 = da) ∧
    ∃ d, collectData (buildProt2grp [("DA", ["P"])] [])
      [("P", [(0, sampleHit 1)])] [] = .ok d :=
  C6_prot2grp_unique [("P", [(0, sampleHit 1)])] [("DA", ["P"])] (by decide)

/-! ### Theorems for C4 (bounded, globally ranked summary) -/

theorem collectData_eq (p2g : Dict String String) :
    ∀ (tg : List (String × Dict Nat Hit)) (data d : List Row),
      collectData p2g tg data = .ok d → d = data ++ allRows tg p2g
  | [], data, d, h => by
    cases h
    simp [allRows]
  | (prot, hits) :: rest, data, d, h => by
    simp only [collectData] at h
    rcases hda : dlookup p2g prot with _ | da
    · rw [hda] at h
      cases h
    · rw [hda] at h
      rw [collectData_eq p2g rest _ _ h]
      simp [allRows, hda]

theorem le5_key2 {a b : Row} (h : le5 a b) :
    a.1 < b.1 ∨ (a.1 = b.1 ∧ a.2.1 ≤ b.2.1) := by
  have h' : a.1 < b.1 ∨ (a.1 = b.1 ∧ leQSNS a.2 b.2) := h
  rcases h' with h' | ⟨he, hq⟩
  · exact Or.inl h'
  · have hq' : a.2.1 < b.2.1 ∨ (a.2.1 = b.2.1 ∧ leSNS a.2.2 b.2.2) := hq
    rcases hq' with hq' | ⟨he2, _⟩
    · exact Or.inr ⟨he, le_of_lt hq'⟩
    · exact Or.inr ⟨he, le_of_eq he2⟩

theorem summaryRows_inv {tgQd : Dict String (Dict Nat Hit)}
    {grpQd : Dict String (List String)} {xbest : Nat} {rows : List Row}
    (h : summaryRows tgQd grpQd xbest = .ok rows) :
    ∃ data, collectData (buildProt2grp grpQd []) tgQd [] = .ok data ∧
      rows = (List.insertionSort le5 data).take xbest := by
  unfold summaryRows at h
  split at h
  · cases h
  next data hdata =>
    cases h
    exact ⟨data, hdata, rfl⟩

/-- C4: `summary_tremolo` keeps at most `xbest` rows per query sub-domain;
the kept rows carry the globally smallest `(e-value, probability)` keys
across all proteins of the sub-domain (every kept key is at most every
dropped key), are rendered in ascending order of that key, and when the
sub-domain's total hit count is at most `xbest` every hit appears exactly
once (the kept rows are a permutation of all rows). -/
theorem C4_summary_bound {tgQd : Dict String (Dict Nat Hit)}
    {grpQd : Dict String (List String)} {xbest : Nat} {rows : List Row}
    (hok : summaryRows tgQd grpQd xbest = .ok rows) :
    rows.length ≤ xbest ∧
    rows.Pairwise (fun r1 r2 => r1.1 < r2.1 ∨ (r1.1 = r2.1 ∧ r1.2.1 ≤ r2.2.1)) ∧
    ∃ rest, (rows ++ rest).Perm (allRows tgQd (buildProt2grp grpQd [])) ∧
      (∀ r ∈ rows, ∀ d ∈ rest, r.1 < d.1 ∨ (r.1 = d.1 ∧ r.2.1 ≤ d.2.1)) ∧
      ((allRows tgQd (buildProt2grp grpQd [])).length ≤ xbest → rest = []) := by
  obtain ⟨data, hdata, hrows⟩ := summaryRows_inv hok
  have hall : data = allRows tgQd (buildProt2grp grpQd []) := by
    simpa using collectData_eq _ tgQd [] data hdata
  have hsort : List.Sorted le5 (List.insertionSort le5 data) :=
    List.sorted_insertionSort le5 data
  have hperm : (List.insertionSort le5 data).Perm data := List.perm_insertionSort le5 data
  have hsplit : List.take xbest (List.insertionSort le5 data) ++
      List.drop xbest (List.insertionSort le5 data) = List.insertionSort le5 data :=
    List.take_append_drop xbest _
  refine ⟨?_, ?_, List.drop xbest (List.insertionSort le5 data), ?_, ?_, ?_⟩
  · rw [hrows, List.length_take]
    exact inf_le_left
  · rw [hrows]
    exact (List.Pairwise.sublist (List.take_sublist _ _) hsort).imp le5_key2
  · rw [hrows, hsplit]
    exact hall ▸ hperm
  · intro r hr d hd
    have hpw : List.Pairwise le5 (List.take xbest (List.insertionSort le5 data) ++
        List.drop xbest (List.insertionSort le5 data)) := by
      rw [hsplit]
      exact hsort
    rw [hrows] at hr
    exact le5_key2 ((List.pairwise_append.mp hpw).2.2 r hr d hd)
  · intro hlen
    exact List.drop_eq_nil_of_le (by rw [hperm.length_eq, hall]; exact hlen)

theorem C4_summary_bound_witness :
    ([((1 : ℚ), (1 : ℚ), "P", (1 : Nat), "DA")] : List Row).length ≤ 1 ∧
    ([((1 : ℚ), (1 : ℚ), "P", (1 : Nat), "DA")] : List Row).Pairwise
      (fun r1 r2 => r1.1 < r2.1 ∨ (r1.1 = r2.1 ∧ r1.2.1 ≤ r2.2.1)) ∧
    ∃ rest, (([((1 : ℚ), (1 : ℚ), "P", (1 : Nat), "DA")] : List Row) ++ rest).Perm
        (allRows [("P", [(0, sampleHit 2), (1, sampleHit 1)])]
          (buildProt2grp [("DA", ["P"])] [])) ∧
      (∀ r ∈ ([((1 : ℚ), (1 : ℚ), "P", (1 : Nat), "DA")] : List Row), ∀ d ∈ rest,
        r.1 < d.1 ∨ (r.1 = d.1 ∧ r.2.1 ≤ d.2.1)) ∧
      ((allRows [("P", [(0, sampleHit 2), (1, sampleHit 1)])]
          (buildProt2grp [("DA", ["P"])] [])).length ≤ 1 → rest = []) :=
  C4_summary_bound rfl

/-! ### Theorems for C3 (arrangement ranking) -/

theorem orderdaProts_eq (targets : Dict String (Dict Nat Hit)) (da : String) :
    ∀ (prots : List String) (kept : List (ℚ × String)),
      (∀ p ∈ prots, ∃ hs, dlookup targets p = some hs) →
      orderdaProts targets da prots kept = .ok (kept ++ protEntries targets da prots)
  | [], kept, _ => by simp [orderdaProts, protEntries]
  | p :: rest, kept, hall => by
    obtain ⟨hs, hlk⟩ := hall p (List.mem_cons_self _ _)
    simp only [orderdaProts, hlk]
    rw [orderdaProts_eq targets da rest _ fun q hq => hall q (List.mem_cons_of_mem _ hq)]
    simp [protEntries, hlk, List.append_assoc]

theorem orderdaCollect_eq (targets : Dict String (Dict Nat Hit)) :
    ∀ (arrs : List (String × List String)) (kept : List (ℚ × String)),
      (∀ pr ∈ arrs, ∀ p ∈ pr.2, ∃ hs, dlookup targets p = some hs) →
      orderdaCollect targets arrs kept = .ok (kept ++ entriesOf targets arrs)
  | [], kept, _ => by simp [orderdaCollect, entriesOf]
  | (da, prots) :: rest, kept, hall => by
    simp only [orderdaCollect]
    rw [orderdaProts_eq targets da prots kept (hall (da, prots) (List.mem_cons_self _ _))]
    show orderdaCollect targets rest (kept ++ protEntries targets da prots) = _
    rw [orderdaCollect_eq targets rest _
      fun pr hpr => hall pr (List.mem_cons_of_mem _ hpr)]
    simp [entriesOf, List.append_assoc]

theorem snd_mem_entriesOf {targets : Dict String (Dict Nat Hit)}
    {arrs : List (String × List String)} {d : String}
    (h : d ∈ (entriesOf targets arrs).map Prod.snd) : d ∈ dkeys arrs := by
  obtain ⟨q, hq, hqd⟩ := List.mem_map.mp h
  unfold entriesOf at hq
  obtain ⟨l, hl, hql⟩ := List.mem_flatten.mp hq
  obtain ⟨pr, hpr, hpl⟩ := List.mem_map.mp hl
  subst hpl
  unfold protEntries at hql
  obtain ⟨l2, hl2, hql2⟩ := List.mem_flatten.mp hql
  obtain ⟨p, hp, hpl2⟩ := List.mem_map.mp hl2
  subst hpl2
  obtain ⟨qq, hqq, hqeq⟩ := List.mem_map.mp hql2
  rw [← hqd, ← hqeq]
  exact List.mem_map.mpr ⟨pr, hpr, rfl⟩

theorem mem_entriesOf_of {targets : Dict String (Dict Nat Hit)}
    (arrs : List (String × List String)) (pr : String × List String) (hpr : pr ∈ arrs)
    (p : String) (hp : p ∈ pr.2) (q : Nat × Hit) (hs : Dict Nat Hit)
    (hlk : dlookup targets p = some hs) (hq : q ∈ hs) :
    (q.2.Evalue, pr.1) ∈ entriesOf targets arrs := by
  unfold entriesOf
  refine List.mem_flatten.mpr
    ⟨protEntries targets pr.1 pr.2, List.mem_map.mpr ⟨pr, hpr, rfl⟩, ?_⟩
  unfold protEntries
  refine List.mem_flatten.mpr
    ⟨((dlookup targets p).getD []).map fun qq => (qq.2.Evalue, pr.1),
      List.mem_map.mpr ⟨p, hp, rfl⟩, ?_⟩
  rw [hlk]
  exact List.mem_map.mpr ⟨q, hq, rfl⟩

theorem mem_dedupDA : ∀ (l : List (ℚ × String)) (seen : List String) (d : String),
    d ∈ dedupDA l seen ↔ (d ∈ l.map Prod.snd ∧ d ∉ seen)
  | [], seen, d => by simp [dedupDA]
  | (e, da) :: rest, seen, d => by
    simp only [dedupDA, List.map_cons, List.mem_cons]
    by_cases hs : da ∈ seen
    · rw [if_pos hs, mem_dedupDA rest seen d]
      constructor
      · rintro ⟨h1, h2⟩
        exact ⟨Or.inr h1, h2⟩
      · rintro ⟨h1 | h1, h2⟩
        · exact absurd (h1 ▸ hs) h2
        · exact ⟨h1, h2⟩
    · rw [if_neg hs]
      simp only [List.mem_cons, mem_dedupDA rest (da :: seen) d]
      constructor
      · rintro (h | ⟨h1, h2⟩)
        · subst h
          exact ⟨Or.inl rfl, hs⟩
        · exact ⟨Or.inr h1, fun hc => h2 (Or.inr hc)⟩
      · rintro ⟨h1 | h1, h2⟩
        · exact Or.inl h1
        · by_cases hd : d = da
          · exact Or.inl hd
          · exact Or.inr ⟨h1, by simp [hd, h2]⟩

theorem nodup_dedupDA : ∀ (l : List (ℚ × String)) (seen : List String),
    (dedupDA l seen).Nodup
  | [], _ => List.nodup_nil
  | (e, da) :: rest, seen => by
    simp only [dedupDA]
    by_cases hs : da ∈ seen
    · rw [if_pos hs]
      exact nodup_dedupDA rest seen
    · rw [if_neg hs]
      refine List.nodup_cons.mpr ⟨fun hc => ?_, nodup_dedupDA rest (da :: seen)⟩
      exact ((mem_dedupDA rest _ da).mp hc).2 (List.mem_cons_self _ _)

theorem sndMin_cons_ne {e : ℚ} {da d : String} (l : List (ℚ × String)) (h : d ≠ da) :
    sndMin ((e, da) :: l) d = sndMin l d := by
  unfold sndMin
  have hne : ¬ ((e, da).2 = d) := fun hh => h hh.symm
  simp [List.filter_cons, hne]

theorem sndMin_cons_self {e : ℚ} {da : String} (l : List (ℚ × String))
    (hle : ∀ e', (e', da) ∈ l → e ≤ e') : sndMin ((e, da) :: l) da = some e := by
  unfold sndMin
  rw [show ((e, da) :: l).filter (fun q => decide (q.2 = da)) =
    (e, da) :: l.filter (fun q => decide (q.2 = da)) from by simp [List.filter_cons]]
  rw [List.map_cons, min?_cons_eq]
  rw [foldl_min_eq_self]
  intro y hy
  obtain ⟨q, hq, hqy⟩ := List.mem_map.mp hy
  obtain ⟨hql, hqd⟩ := List.mem_filter.mp hq
  have hqd' : q.2 = da := by simpa using hqd
  rw [← hqy]
  refine hle q.1 ?_
  rw [← hqd']
  exact hql

theorem sndMin_isSome_of_mem {l : List (ℚ × String)} {e : ℚ} {d : String}
    (h : (e, d) ∈ l) :
    ∃ a, sndMin l d = some a ∧ (a, d) ∈ l ∧ ∀ e', (e', d) ∈ l → a ≤ e' := by
  have hmem : (e, d) ∈ l.filter fun q => decide (q.2 = d) :=
    List.mem_filter.mpr ⟨h, by simp⟩
  have hne : (l.filter fun q => decide (q.2 = d)).map Prod.fst ≠ [] := by
    rcases hf : l.filter fun q => decide (q.2 = d) with _ | ⟨q0, qs⟩
    · rw [hf] at hmem
      cases hmem
    · rw [hf]
      simp
  obtain ⟨a, ha⟩ := min?_isSome_of_ne_nil hne
  obtain ⟨ham, hle⟩ := min?_spec ha
  obtain ⟨q, hq, hqa⟩ := List.mem_map.mp ham
  obtain ⟨hql, hqd⟩ := List.mem_filter.mp hq
  have hqd' : q.2 = d := by simpa using hqd
  refine ⟨a, ha, ?_, ?_⟩
  · rw [← hqa, ← hqd']
    exact hql
  · intro e' he'
    exact hle e' (List.mem_map.mpr ⟨(e', d), List.mem_filter.mpr ⟨he', by simp⟩, rfl⟩)

theorem sndMin_perm {l l' : List (ℚ × String)} (h : l.Perm l') (d : String) :
    sndMin l d = sndMin l' d := by
  unfold sndMin
  exact min?_eq_of_perm ((h.filter _).map _)

theorem dedupDA_pairwise : ∀ (l : List (ℚ × String)), List.Pairwise pairLE l →
    ∀ (seen : List String),
      (dedupDA l seen).Pairwise (fun d1 d2 => ∃ e1 e2, sndMin l d1 = some e1 ∧
        sndMin l d2 = some e2 ∧ (e1 < e2 ∨ (e1 = e2 ∧ strLt d1 d2)))
  | [], _, seen => by simp [dedupDA]
  | (e, da) :: rest, hpw, seen => by
    obtain ⟨hh, hrest⟩ := List.pairwise_cons.mp hpw
    simp only [dedupDA]
    by_cases hs : da ∈ seen
    · rw [if_pos hs]
      refine (dedupDA_pairwise rest hrest seen).imp_of_mem ?_
      intro d1 d2 h1 h2 hrel
      obtain ⟨e1, e2, hm1, hm2, hcmp⟩ := hrel
      have hd1 : d1 ≠ da := fun hc => ((mem_dedupDA rest seen d1).mp h1).2 (hc ▸ hs)
      have hd2 : d2 ≠ da := fun hc => ((mem_dedupDA rest seen d2).mp h2).2 (hc ▸ hs)
      refine ⟨e1, e2, ?_, ?_, hcmp⟩
      · rw [sndMin_cons_ne rest hd1]
        exact hm1
      · rw [sndMin_cons_ne rest hd2]
        exact hm2
    · rw [if_neg hs]
      refine List.pairwise_cons.mpr ⟨?_, ?_⟩
      · intro d2 hd2
        have hd2p := (mem_dedupDA rest (da :: seen) d2).mp hd2
        have hd2da : d2 ≠ da := fun hc => hd2p.2 (hc ▸ List.mem_cons_self _ _)
        obtain ⟨q2, hq2mem, hq2snd⟩ := List.mem_map.mp hd2p.1
        have hq2' : (q2.1, d2) ∈ rest := by
          rw [← hq2snd]
          exact hq2mem
        obtain ⟨e2, he2, he2mem, he2le⟩ := sndMin_isSome_of_mem hq2'
        have hminda : sndMin ((e, da) :: rest) da = some e := by
          apply sndMin_cons_self
          intro e' he'
          have h' : e < e' ∨ (e = e' ∧ strLe da da) := hh (e', da) he'
          rcases h' with h' | ⟨h', _⟩
          · exact le_of_lt h'
          · exact le_of_eq h'
        refine ⟨e, e2, hminda, ?_, ?_⟩
        · rw [sndMin_cons_ne rest hd2da]
          exact he2
        · have h' : e < e2 ∨ (e = e2 ∧ strLe da d2) := hh (e2, d2) he2mem
          rcases h' with h' | ⟨h', hle2⟩
          · exact Or.inl h'
          · exact Or.inr ⟨h', strLe_lt_of_ne hle2 (Ne.symm hd2da)⟩
      · refine (dedupDA_pairwise rest hrest (da :: seen)).imp_of_mem ?_
        intro d1 d2 h1 h2 hrel
        obtain ⟨e1, e2, hm1, hm2, hcmp⟩ := hrel
        have hd1 : d1 ≠ da := fun hc =>
          ((mem_dedupDA rest _ d1).mp h1).2 (hc ▸ List.mem_cons_self _ _)
        have hd2 : d2 ≠ da := fun hc =>
          ((mem_dedupDA rest _ d2).mp h2).2 (hc ▸ List.mem_cons_self _ _)
        refine ⟨e1, e2, ?_, ?_, hcmp⟩
        · rw [sndMin_cons_ne rest hd1]
          exact hm1
        · rw [sndMin_cons_ne rest hd2]
          exact hm2

/-- C3 counterexample: an arrangement grouping containing a signature whose
only member protein has no hit.  `orderda` returns the empty sequence, which
is not a permutation of the grouping's full signature set `["A"]`. -/
theorem C3_counterexample :
    orderda [("A", ["P"])] [("P", [])] = .ok [] ∧
    dkeys ([("A", ["P"])] : Dict String (List String)) = ["A"] ∧
    ¬ ([] : List String).Perm ["A"] :=
  ⟨rfl, rfl, by decide⟩

/-- C3 (amended): when every member protein of every arrangement is present
in the hit mapping and every arrangement has at least one member protein
with at least one hit, `orderda` returns each arrangement signature exactly
once (no duplicates, a permutation of the grouping's signature set), ordered
ascending by the minimum e-value over all hits of any member protein, with
the arrangement label as the tie-break between equal minima. -/
theorem C3_ranker (arrangements : Dict String (List String))
    (targets : Dict String (Dict Nat Hit))
    (hkeys : (dkeys arrangements).Nodup)
    (hmem : ∀ pr ∈ arrangements, ∀ p ∈ pr.2, ∃ hs, dlookup targets p = some hs)
    (hhit : ∀ pr ∈ arrangements, ∃ p ∈ pr.2, ∃ hs, dlookup targets p = some hs ∧ hs ≠ []) :
    ∃ l, orderda arrangements targets = .ok l ∧ l.Nodup ∧
      l.Perm (dkeys arrangements) ∧
      l.Pairwise (fun d1 d2 => ∃ e1 e2, daMin targets arrangements d1 = some e1 ∧
        daMin targets arrangements d2 = some e2 ∧ (e1 < e2 ∨ (e1 = e2 ∧ strLt d1 d2))) := by
  have horder : orderda arrangements targets =
      .ok (dedupDA (List.insertionSort pairLE (entriesOf targets arrangements)) []) := by
    unfold orderda
    rw [orderdaCollect_eq targets arrangements [] hmem]
    rfl
  have hsorted : List.Sorted pairLE
      (List.insertionSort pairLE (entriesOf targets arrangements)) :=
    List.sorted_insertionSort pairLE _
  have hperm : (List.insertionSort pairLE (entriesOf targets arrangements)).Perm
      (entriesOf targets arrangements) := List.perm_insertionSort pairLE _
  refine ⟨_, horder, nodup_dedupDA _ [], ?_, ?_⟩
  · rw [List.perm_ext_iff_of_nodup (nodup_dedupDA _ []) hkeys]
    intro d
    rw [mem_dedupDA]
    simp only [List.not_mem_nil, not_false_iff, and_true]
    constructor
    · intro hd
      exact snd_mem_entriesOf ((hperm.map Prod.snd).mem_iff.mp hd)
    · intro hd
      obtain ⟨pr, hpr, hprd⟩ := List.mem_map.mp hd
      obtain ⟨p, hp, hs2, hlk, hne⟩ := hhit pr hpr
      rcases hs2 with _ | ⟨q0, qrest⟩
      · exact absurd rfl hne
      · have hment : (q0.2.Evalue, pr.1) ∈ entriesOf targets arrangements :=
          mem_entriesOf_of arrangements pr hpr p hp q0 _ hlk (List.mem_cons_self _ _)
        rw [← hprd]
        exact List.mem_map.mpr ⟨(q0.2.Evalue, pr.1), hperm.mem_iff.mpr hment, rfl⟩
  · refine (dedupDA_pairwise _ hsorted []).imp ?_
    intro d1 d2 hrel
    obtain ⟨e1, e2, hm1, hm2, hcmp⟩ := hrel
    refine ⟨e1, e2, ?_, ?_, hcmp⟩
    · show sndMin (entriesOf targets arrangements) d1 = some e1
      rw [← sndMin_perm hperm d1]
      exact hm1
    · show sndMin (entriesOf targets arrangements) d2 = some e2
      rw [← sndMin_perm hperm d2]
      exact hm2

theorem C3_ranker_witness :
    ∃ l, orderda [("A", ["P"]), ("B", ["Q"])]
        [("P", [(0, sampleHit 2)]), ("Q", [(0, sampleHit 1)])] = .ok l ∧
      l.Nodup ∧
      l.Perm (dkeys ([("A", ["P"]), ("B", ["Q"])] : Dict String (List String))) ∧
      l.Pairwise (fun d1 d2 => ∃ e1 e2,
        daMin [("P", [(0, sampleHit 2)]), ("Q", [(0, sampleHit 1)])]
          [("A", ["P"]), ("B", ["Q"])] d1 = some e1 ∧
        daMin [("P", [(0, sampleHit 2)]), ("Q", [(0, sampleHit 1)])]
          [("A", ["P"]), ("B", ["Q"])] d2 = some e2 ∧
        (e1 < e2 ∨ (e1 = e2 ∧ strLt d1 d2))) := by
  refine C3_ranker _ _ (by decide) ?_ ?_
  · intro pr hpr p hp
    rcases List.mem_cons.mp hpr with h1 | h1
    · subst h1
      have hp' : p = "P" := by simpa using hp
      subst hp'
      exact ⟨[(0, sampleHit 2)], rfl⟩
    · have h2 : pr = ("B", ["Q"]) := by simpa using h1
      subst h2
      have hp' : p = "Q" := by simpa using hp
      subst hp'
      exact ⟨[(0, sampleHit 1)], rfl⟩
  · intro pr hpr
    rcases List.mem_cons.mp hpr with h1 | h1
    · subst h1
      exact ⟨"P", by simp, [(0, sampleHit 2)], rfl, by simp⟩
    · have h2 : pr = ("B", ["Q"]) := by simpa using h1
      subst h2
      exact ⟨"Q", by simp, [(0, sampleHit 1)], rfl, by simp⟩

end PyHCA
